import Mathlib

/-!
Verification of the core pipeline of `elliotjreed/database-anonymiser-minimiser`
(a Go CLI that exports a database while anonymising and minimising data).

The Go source is shallowly embedded: Go maps are modelled as association
lists or total functions with the zero value as default, `any` values as the
inductive `GoValue`, machine integers as `Nat`/`Int` with explicit wrapping
where Go converts between widths, and the randomness of the faker library as
an explicit stream `gen : Nat -> String` consumed one value per invocation.
Where a Go `for ... range` iterates a map (whose iteration order is
unspecified), the embedding takes the iteration order as an explicit list
parameter and the theorems quantify over (or exhibit) such orders.
-/

namespace DBAnon

/-- Model of a Go `any` value as produced by database drivers
(`internal/fktracker/tracker.go` and the row maps).  Each constructor is one
of the dynamic types inspected by `normalizeValue`; `vnil` is Go `nil`. -/
inductive GoValue where
  | vnil
  | vbool (b : Bool)
  | vint (n : Int)
  | vint8 (n : Int)
  | vint16 (n : Int)
  | vint32 (n : Int)
  | vint64 (n : Int)
  | vuint (n : Nat)
  | vuint8 (n : Nat)
  | vuint16 (n : Nat)
  | vuint32 (n : Nat)
  | vuint64 (n : Nat)
  | vfloat32 (q : Rat)
  | vfloat64 (q : Rat)
  | vbytes (s : String)
  | vstring (s : String)
deriving DecidableEq, Repr

/-- Go's conversion `int64(v)` for a 64-bit unsigned `v`: the value wraps
modulo `2^64` into the signed range `[-2^63, 2^63)`.  `Int.bmod` is exactly
this balanced remainder. -/
def int64OfUint64 (n : Nat) : Int :=
  Int.bmod (n : Int) (2 ^ 64)

/-- `normalizeValue` from `internal/fktracker/tracker.go` lines 106-134:
all signed and small unsigned integer types become `int64` (value
preserving), `uint`/`uint64` become `int64` with wrap-around, `float32`
becomes `float64` (exact, so the carried rational is unchanged), `[]byte`
becomes `string`, everything else is returned unchanged. -/
def normalizeValue : GoValue → GoValue
  | .vint n => .vint64 n
  | .vint8 n => .vint64 n
  | .vint16 n => .vint64 n
  | .vint32 n => .vint64 n
  | .vuint n => .vint64 (int64OfUint64 n)
  | .vuint8 n => .vint64 (n : Int)
  | .vuint16 n => .vint64 (n : Int)
  | .vuint32 n => .vint64 (n : Int)
  | .vuint64 n => .vint64 (int64OfUint64 n)
  | .vfloat32 q => .vfloat64 q
  | .vbytes s => .vstring s
  | v => v

/-- `makeKey` from tracker.go: `fmt.Sprintf("%s.%s", table, column)`. -/
def makeKey (table column : String) : String :=
  table ++ "." ++ column

/-- The tracker's `exportedKeys` map, `"table.column" -> set of values`,
modelled as a total function whose default is the empty set (Go's lookup of
a missing key yields the zero value / nil set). -/
def Tracker : Type := String → List GoValue

/-- `NewTracker`: empty map. -/
def newTracker : Tracker := fun _ => []

/-- Insertion into the Go set `map[any]struct{}` (idempotent). -/
def setInsert (l : List GoValue) (x : GoValue) : List GoValue :=
  if x ∈ l then l else x :: l

/-- `RecordValue` (tracker.go lines 29-46): `nil` is not tracked; other
values are normalised and inserted into the set at `table.column`. -/
def recordValue (tr : Tracker) (table column : String) (value : GoValue) : Tracker :=
  if value = .vnil then tr
  else fun k =>
    if k = makeKey table column then setInsert (tr (makeKey table column)) (normalizeValue value)
    else tr k

/-- `HasValue` (tracker.go lines 49-67): `nil` always passes; otherwise the
normalised value is looked up in the set (a missing key means `false`). -/
def hasValue (tr : Tracker) (table column : String) (value : GoValue) : Bool :=
  if value = .vnil then true
  else decide (normalizeValue value ∈ tr (makeKey table column))

/-- `GetExportedCount` (tracker.go lines 90-101). -/
def getExportedCount (tr : Tracker) (table column : String) : Nat :=
  (tr (makeKey table column)).length

lemma normalizeValue_ne_vnil {v : GoValue} (h : v ≠ .vnil) : normalizeValue v ≠ .vnil := by
  cases v <;> simp_all [normalizeValue]

lemma mem_setInsert_self (l : List GoValue) (x : GoValue) : x ∈ setInsert l x := by
  unfold setInsert
  split <;> simp_all

/-- C5, part of the supporting development: after recording `v`, any value
with the same normalisation is found. -/
lemma hasValue_recordValue_of_normEq (tr : Tracker) (t c : String) {v w : GoValue}
    (hv : v ≠ .vnil) (hw : normalizeValue w = normalizeValue v) :
    hasValue (recordValue tr t c v) t c w = true := by
  by_cases hwnil : w = .vnil
  · simp [hasValue, hwnil]
  · simp only [hasValue, if_neg hwnil, recordValue, if_neg hv, decide_eq_true_eq, hw]
    simpa using mem_setInsert_self _ _

/-- C5: for every `(table, column, value)` recorded in the tracker,
`HasValue` is true for that exact value and for any value normalising to the
same representation; `RecordValue` with `nil` is a no-op (in particular the
exported count is unchanged); and `HasValue` with `nil` is true for every
table and column. -/
theorem fktracker_record_hasValue (tr : Tracker) (t c : String) (v w : GoValue)
    (hv : v ≠ .vnil) (hw : normalizeValue w = normalizeValue v) :
    hasValue (recordValue tr t c v) t c v = true ∧
    hasValue (recordValue tr t c v) t c w = true ∧
    (∀ t' c' : String, recordValue tr t' c' .vnil = tr ∧
      getExportedCount (recordValue tr t' c' .vnil) t' c' = getExportedCount tr t' c') ∧
    (∀ t' c' : String, hasValue tr t' c' .vnil = true) := by
  refine ⟨hasValue_recordValue_of_normEq tr t c hv rfl,
          hasValue_recordValue_of_normEq tr t c hv hw, ?_, ?_⟩
  · intro t' c'
    constructor
    · simp [recordValue]
    · simp [recordValue]
  · intro t' c'
    simp [hasValue]

/-- Witness for C5 at concrete values: `int32(7)` recorded, `uint(7)` looked
up (they normalise to the same `int64(7)`). -/
theorem fktracker_record_hasValue_witness :
    GoValue.vint32 7 ≠ GoValue.vnil ∧
    normalizeValue (.vuint 7) = normalizeValue (.vint32 7) ∧
    hasValue (recordValue newTracker "users" "id" (.vint32 7)) "users" "id" (.vint32 7) = true ∧
    hasValue (recordValue newTracker "users" "id" (.vint32 7)) "users" "id" (.vuint 7) = true := by
  have h := fktracker_record_hasValue newTracker "users" "id" (.vint32 7) (.vuint 7)
    (by decide) (by decide)
  exact ⟨by decide, by decide, h.1, h.2.1⟩

lemma int64OfUint64_eq (n : Nat) (h : n < 2 ^ 64) :
    int64OfUint64 n = if n < 2 ^ 63 then (n : Int) else (n : Int) - 2 ^ 64 := by
  unfold int64OfUint64
  rw [Int.bmod_def]
  have hmod : (n : Int) % ((2 ^ 64 : Nat) : Int) = (n : Int) := by
    apply Int.emod_eq_of_lt (by positivity)
    exact_mod_cast h
  rw [hmod]
  have hc : ((2 ^ 64 : Nat) : Int) = 2 ^ 64 := by norm_num
  rw [hc]
  have hdiv : (((2 : Int) ^ 64 + 1) / 2) = 2 ^ 63 := by decide
  rw [hdiv]
  by_cases hn : n < 2 ^ 63
  · rw [if_pos (by exact_mod_cast hn), if_pos hn]
  · rw [if_neg (by exact_mod_cast hn), if_neg hn]

lemma int64OfUint64_inj {a b : Nat} (ha : a < 2 ^ 64) (hb : b < 2 ^ 64)
    (hne : a ≠ b) : int64OfUint64 a ≠ int64OfUint64 b := by
  rw [int64OfUint64_eq a ha, int64OfUint64_eq b hb]
  have : (a : Int) ≠ (b : Int) := by exact_mod_cast hne
  split <;> split <;> omega

/-- C10: the tracker's normalisation maps `uint64` through wrap-around
modulo `2^64` into signed `int64` (values at or above `2^63` become
negative); the mapping is injective on the `uint64` range so distinct
recorded `uint64` keys never collide; and after recording `uint64 v` in a
fresh tracker, `HasValue` holds exactly for the non-nil values whose
normalisation is `int64OfUint64 v`. -/
theorem fktracker_uint64_wrap (v₁ v₂ : Nat) (h₁ : v₁ < 2 ^ 64) (h₂ : v₂ < 2 ^ 64) :
    (normalizeValue (.vuint64 v₁) = .vint64 (int64OfUint64 v₁) ∧
      (2 ^ 63 ≤ v₁ → int64OfUint64 v₁ < 0)) ∧
    (v₁ ≠ v₂ → normalizeValue (.vuint64 v₁) ≠ normalizeValue (.vuint64 v₂)) ∧
    (∀ x : GoValue, x ≠ .vnil → ∀ t c : String,
      hasValue (recordValue newTracker t c (.vuint64 v₁)) t c x = true ↔
        normalizeValue x = .vint64 (int64OfUint64 v₁)) := by
  refine ⟨⟨rfl, ?_⟩, ?_, ?_⟩
  · intro hge
    rw [int64OfUint64_eq v₁ h₁, if_neg (by omega)]
    have : (v₁ : Int) < 2 ^ 64 := by exact_mod_cast h₁
    omega
  · intro hne
    simp only [normalizeValue, GoValue.vint64.injEq, ne_eq]
    exact int64OfUint64_inj h₁ h₂ hne
  · intro x hx t c
    have hne : GoValue.vuint64 v₁ ≠ GoValue.vnil := fun h => by cases h
    simp only [hasValue, if_neg hx, recordValue, if_neg hne]
    simp [newTracker, setInsert, normalizeValue]

/-- Witness for C10 at `v₁ = 2^63` and `v₂ = 1`: the wrap is negative,
distinct keys don't collide, and lookup after recording behaves as stated. -/
theorem fktracker_uint64_wrap_witness :
    ((2 : Nat) ^ 63 < 2 ^ 64 ∧ (1 : Nat) < 2 ^ 64) ∧
    int64OfUint64 (2 ^ 63) < 0 ∧
    normalizeValue (.vuint64 (2 ^ 63)) ≠ normalizeValue (.vuint64 1) ∧
    (hasValue (recordValue newTracker "t" "c" (.vuint64 (2 ^ 63))) "t" "c"
        (.vint64 (-(2 ^ 63))) = true) := by
  have h := fktracker_uint64_wrap (2 ^ 63) 1 (by norm_num) (by norm_num)
  refine ⟨⟨by norm_num, by norm_num⟩, h.1.2 le_rfl, h.2.1 (by norm_num), ?_⟩
  rw [h.2.2 (.vint64 (-(2 ^ 63))) (by simp) "t" "c"]
  decide

/-! ### Date parsing (`internal/config/config.go`, `parseDate`)

`parseDate` tries four `time.Parse` layouts in a fixed order.  The relevant
behaviour of Go's `time.Parse` for these layouts is embedded below: fixed
width digit fields, literal separators, calendar range validation (month,
day against month length with leap years, hour/minute/second), the optional
fractional second Go accepts after a seconds field, the `Z`/`±hh:mm` zone of
RFC 3339, and rejection of trailing text. -/

/-- Result of a successful parse: the components of the Go `time.Time`. -/
structure GoTime where
  year : Nat
  month : Nat
  day : Nat
  hour : Nat := 0
  minute : Nat := 0
  second : Nat := 0
  nsec : Nat := 0
  offsetSec : Int := 0
deriving DecidableEq, Repr

/-- Consume exactly `k` digits, accumulating their value. -/
def takeDigits : Nat → Nat → List Char → Option (Nat × List Char)
  | 0, acc, cs => some (acc, cs)
  | k + 1, acc, c :: cs =>
    if c.isDigit then takeDigits k (acc * 10 + (c.toNat - 48)) cs else none
  | _ + 1, _, [] => none

/-- Consume one expected literal character. -/
def expectChar (c : Char) : List Char → Option (List Char)
  | x :: cs => if x = c then some cs else none
  | [] => none

/-- Go `isLeap`: divisible by 4 and (not by 100 or by 400). -/
def isLeap (y : Nat) : Bool :=
  y % 4 == 0 && (y % 100 != 0 || y % 400 == 0)

/-- Days in a month, as Go's `daysIn`. -/
def daysIn (m y : Nat) : Nat :=
  if m = 2 then (if isLeap y then 29 else 28)
  else if m = 4 ∨ m = 6 ∨ m = 9 ∨ m = 11 then 30
  else 31

/-- Parse `YYYY-MM-DD` with Go's range validation of month and day. -/
def parseYMD (cs : List Char) : Option (Nat × Nat × Nat × List Char) := do
  let (y, cs1) ← takeDigits 4 0 cs
  let cs2 ← expectChar '-' cs1
  let (m, cs3) ← takeDigits 2 0 cs2
  let cs4 ← expectChar '-' cs3
  let (d, cs5) ← takeDigits 2 0 cs4
  if 1 ≤ m ∧ m ≤ 12 ∧ 1 ≤ d ∧ d ≤ daysIn m y then some (y, m, d, cs5) else none

def digitsToNat (ds : List Char) : Nat :=
  ds.foldl (fun a c => a * 10 + (c.toNat - 48)) 0

/-- Go accepts an optional fractional second after a seconds field even when
the layout has none; more than nine fractional digits is a range error. -/
def parseOptFrac (cs : List Char) : Option (Nat × List Char) :=
  match cs with
  | c :: d :: rest =>
    if (c == '.' || c == ',') && d.isDigit then
      let ds := (d :: rest).takeWhile Char.isDigit
      let rest2 := (d :: rest).dropWhile Char.isDigit
      if ds.length > 9 then none
      else some (digitsToNat ds * 10 ^ (9 - ds.length), rest2)
    else some (0, cs)
  | _ => some (0, cs)

/-- Parse `HH:MM:SS` (with optional fraction) and validate ranges. -/
def parseHMS (cs : List Char) : Option (Nat × Nat × Nat × Nat × List Char) := do
  let (h, cs1) ← takeDigits 2 0 cs
  let cs2 ← expectChar ':' cs1
  let (mi, cs3) ← takeDigits 2 0 cs2
  let cs4 ← expectChar ':' cs3
  let (s, cs5) ← takeDigits 2 0 cs4
  if h ≤ 23 ∧ mi ≤ 59 ∧ s ≤ 59 then do
    let (ns, cs6) ← parseOptFrac cs5
    some (h, mi, s, ns, cs6)
  else none

/-- Parse the RFC 3339 zone: `Z` or `±hh:mm`. -/
def parseTZ (cs : List Char) : Option (Int × List Char) :=
  match cs with
  | [] => none
  | c :: rest =>
    if c = 'Z' then some (0, rest)
    else if c = '+' ∨ c = '-' then do
      let (hh, cs1) ← takeDigits 2 0 rest
      let cs2 ← expectChar ':' cs1
      let (mm, cs3) ← takeDigits 2 0 cs2
      let off : Int := ((hh * 3600 + mm * 60 : Nat) : Int)
      some (if c = '-' then -off else off, cs3)
    else none

/-- The four layouts of `parseDate`, in source order: `"2006-01-02"`,
`"2006-01-02T15:04:05"`, `"2006-01-02 15:04:05"`, `time.RFC3339`. -/
inductive DateFormat where
  | dateOnly
  | dateTimeT
  | dateTimeSpace
  | rfc3339
deriving DecidableEq, Repr

def dateFormats : List DateFormat :=
  [.dateOnly, .dateTimeT, .dateTimeSpace, .rfc3339]

/-- `time.Parse` for layout `2006-01-02<sep>15:04:05`. -/
def parseDateTimeSep (sep : Char) (s : String) : Option GoTime := do
  let (y, m, d, rest) ← parseYMD s.toList
  let rest1 ← expectChar sep rest
  let (h, mi, sec, ns, rest2) ← parseHMS rest1
  if rest2.isEmpty then
    some { year := y, month := m, day := d, hour := h, minute := mi, second := sec, nsec := ns }
  else none

/-- `time.Parse layout s` for the four layouts used by `parseDate`. -/
def goTimeParse : DateFormat → String → Option GoTime
  | .dateOnly, s => do
    let (y, m, d, rest) ← parseYMD s.toList
    if rest.isEmpty then some { year := y, month := m, day := d } else none
  | .dateTimeT, s => parseDateTimeSep 'T' s
  | .dateTimeSpace, s => parseDateTimeSep ' ' s
  | .rfc3339, s => do
    let (y, m, d, rest) ← parseYMD s.toList
    let rest1 ← expectChar 'T' rest
    let (h, mi, sec, ns, rest2) ← parseHMS rest1
    let (off, rest3) ← parseTZ rest2
    if rest3.isEmpty then
      some { year := y, month := m, day := d, hour := h, minute := mi, second := sec,
             nsec := ns, offsetSec := off }
    else none

/-- The error text of `parseDate` (config.go line 172). -/
def dateParseError : String :=
  "could not parse date, supported formats: YYYY-MM-DD, YYYY-MM-DDTHH:MM:SS"

/-- The `for _, format := range formats` loop of `parseDate`. -/
def parseDateAux : List DateFormat → String → Except String GoTime
  | [], _ => .error dateParseError
  | f :: fs, s =>
    match goTimeParse f s with
    | some t => .ok t
    | none => parseDateAux fs s

/-- `parseDate` from `internal/config/config.go` lines 157-173. -/
def parseDate (s : String) : Except String GoTime :=
  parseDateAux dateFormats s

/-- C8: `parseDate` tries exactly four textual formats in a fixed order; a
string matching at least one format parses successfully with the result of
the first matching format; a string matching none yields a configuration
error, never a silent default value. -/
theorem parseDate_tries_formats_in_order (s : String) :
    dateFormats.length = 4 ∧
    ((∀ f ∈ dateFormats, goTimeParse f s = none) → parseDate s = .error dateParseError) ∧
    (∀ f ∈ dateFormats, (goTimeParse f s).isSome →
      ∃ g t, g ∈ dateFormats ∧ goTimeParse g s = some t ∧ parseDate s = Except.ok t ∧
        ∀ g' ∈ dateFormats, (goTimeParse g' s).isSome →
          dateFormats.indexOf g ≤ dateFormats.indexOf g') := by
  refine ⟨rfl, ?_, ?_⟩
  · intro h
    have h1 := h .dateOnly (by simp [dateFormats])
    have h2 := h .dateTimeT (by simp [dateFormats])
    have h3 := h .dateTimeSpace (by simp [dateFormats])
    have h4 := h .rfc3339 (by simp [dateFormats])
    simp [parseDate, parseDateAux, dateFormats, h1, h2, h3, h4]
  · intro f hf hsome
    cases h1 : goTimeParse .dateOnly s with
    | some t =>
      refine ⟨.dateOnly, t, by simp [dateFormats], h1,
        by simp [parseDate, parseDateAux, dateFormats, h1], ?_⟩
      intro g' hg' _
      exact Nat.zero_le _
    | none =>
      cases h2 : goTimeParse .dateTimeT s with
      | some t =>
        refine ⟨.dateTimeT, t, by simp [dateFormats], h2,
          by simp [parseDate, parseDateAux, dateFormats, h1, h2], ?_⟩
        intro g' hg' hg's
        simp only [dateFormats, List.mem_cons, List.not_mem_nil, or_false] at hg'
        rcases hg' with rfl | rfl | rfl | rfl
        · rw [h1] at hg's; simp at hg's
        · exact le_refl _
        · decide
        · decide
      | none =>
        cases h3 : goTimeParse .dateTimeSpace s with
        | some t =>
          refine ⟨.dateTimeSpace, t, by simp [dateFormats], h3,
            by simp [parseDate, parseDateAux, dateFormats, h1, h2, h3], ?_⟩
          intro g' hg' hg's
          simp only [dateFormats, List.mem_cons, List.not_mem_nil, or_false] at hg'
          rcases hg' with rfl | rfl | rfl | rfl
          · rw [h1] at hg's; simp at hg's
          · rw [h2] at hg's; simp at hg's
          · exact le_refl _
          · decide
        | none =>
          cases h4 : goTimeParse .rfc3339 s with
          | some t =>
            refine ⟨.rfc3339, t, by simp [dateFormats], h4,
              by simp [parseDate, parseDateAux, dateFormats, h1, h2, h3, h4], ?_⟩
            intro g' hg' hg's
            simp only [dateFormats, List.mem_cons, List.not_mem_nil, or_false] at hg'
            rcases hg' with rfl | rfl | rfl | rfl
            · rw [h1] at hg's; simp at hg's
            · rw [h2] at hg's; simp at hg's
            · rw [h3] at hg's; simp at hg's
            · exact le_refl _
          | none =>
            exfalso
            simp only [dateFormats, List.mem_cons, List.not_mem_nil, or_false] at hf
            rcases hf with rfl | rfl | rfl | rfl
            · rw [h1] at hsome; simp at hsome
            · rw [h2] at hsome; simp at hsome
            · rw [h3] at hsome; simp at hsome
            · rw [h4] at hsome; simp at hsome

/-- Witness for C8: `"2024-01-02 03:04:05"` matches the third format and
`parseDate` returns that format's result; `"nonsense"` matches none and
produces the configuration error. -/
theorem parseDate_tries_formats_in_order_witness :
    (∃ g t, g ∈ dateFormats ∧ goTimeParse g "2024-01-02 03:04:05" = some t ∧
      parseDate "2024-01-02 03:04:05" = Except.ok t ∧
      ∀ g' ∈ dateFormats, (goTimeParse g' "2024-01-02 03:04:05").isSome →
        dateFormats.indexOf g ≤ dateFormats.indexOf g') ∧
    parseDate "nonsense" = .error dateParseError :=
  ⟨(parseDate_tries_formats_in_order "2024-01-02 03:04:05").2.2 .dateTimeSpace
      (by decide) (by decide),
   (parseDate_tries_formats_in_order "nonsense").2.1 (by decide)⟩

/-! ### Configuration (`internal/config/config.go`) and the Anonymiser
(`internal/anonymiser`)

Rows (`map[string]any`) and the nested configuration maps are modelled as
association lists; a Go map iteration corresponds to the order of the list,
which the theorems quantify over where it matters.  `gofakeit`'s randomness
is an explicit stream `gen : Nat → String`: each invocation of a known
generator consumes the next element. -/

/-- `RetainConfig` from config.go: count- or date-based retention.  The Go
zero `time.Time` is `none`. -/
structure RetainConfig where
  count : Int := 0
  columnName : String := ""
  afterDate : Option GoTime := none
deriving DecidableEq, Repr

/-- `TableConfig` from config.go lines 176-181. -/
structure TableConfig where
  truncate : Bool := false
  foreignKeyIntegrity : Option Bool := none
  retain : RetainConfig := {}
  columns : Option (List (String × String)) := none
deriving DecidableEq, Repr

/-- `Config` (connection details omitted — not used by the claims).  The
`configuration` map holds `*TableConfig` pointers, hence the inner
`Option`. -/
structure Config where
  foreignKeyIntegrity : Option Bool := none
  configuration : Option (List (String × Option TableConfig)) := none
deriving DecidableEq, Repr

/-- `Config.GetTableConfig`: `nil` when the map is nil, the entry is absent,
or a nil pointer is stored. -/
def getTableConfig (cfg : Config) (tableName : String) : Option TableConfig :=
  match cfg.configuration with
  | none => none
  | some entries => (entries.lookup tableName).join

/-- The sixteen generator names registered in `fakerFunctions`
(`internal/anonymiser`, faker file lines 11-28). -/
def knownFakerNames : List String :=
  ["name", "firstName", "lastName", "email", "phone", "address", "city", "country",
   "company", "uuid", "username", "password", "ipv4", "date", "text", "number"]

def lbrace : Char := Char.ofNat 123

def rbrace : Char := Char.ofNat 125

/-- `\w` of Go's regexp: ASCII letters, digits, underscore. -/
def isWordChar (c : Char) : Bool := c.isAlphanum || c == '_'

/-- Try to strip the literal opening `\x7b\x7bfaker.` at the head. -/
def stripFakerOpen : List Char → Option (List Char)
  | a :: b :: 'f' :: 'a' :: 'k' :: 'e' :: 'r' :: '.' :: rest =>
    if a = lbrace ∧ b = lbrace then some rest else none
  | _ => none

/-- Match the faker template anchored at the head of the list: the opening,
one or more word characters (greedy — a word char cannot begin the closing),
then the closing braces. -/
def matchFakerAt (l : List Char) : Option String :=
  match stripFakerOpen l with
  | none => none
  | some rest =>
    match rest.takeWhile isWordChar, rest.dropWhile isWordChar with
    | [], _ => none
    | ws, c :: d :: _ =>
      if c = rbrace ∧ d = rbrace then some (String.mk ws) else none
    | _, _ => none

/-- Leftmost match, as `regexp.FindStringSubmatch`. -/
def findFakerName : List Char → Option String
  | [] => none
  | c :: cs =>
    match matchFakerAt (c :: cs) with
    | some f => some f
    | none => findFakerName cs

/-- `ParseFakerTemplate` / the submatch of `fakerPattern` (the regular
expression `\x7b\x7bfaker\.(\w+)\x7d\x7d`). -/
def parseFakerTemplate (rule : String) : Option String :=
  findFakerName rule.toList

/-- The anonymiser's mutable state: the consistency map
(`"column:originalValue" -> substitute`) plus the position in the random
stream. -/
structure AnonState where
  consistencyMap : List (String × String) := []
  counter : Nat := 0
deriving DecidableEq, Repr

/-- `GenerateFakeValue`: a known generator yields the next stream value; an
unknown name yields the empty string without consuming randomness. -/
def generateFakeValue (gen : Nat → String) (st : AnonState) (funcName : String) :
    String × AnonState :=
  if funcName ∈ knownFakerNames then (gen st.counter, { st with counter := st.counter + 1 })
  else ("", st)

/-- A row, `map[string]any`. -/
abbrev Row := List (String × GoValue)

/-- In-place update of an existing key of the row map. -/
def rowSet (row : Row) (col : String) (v : GoValue) : Row :=
  row.map (fun p => if p.1 = col then (p.1, v) else p)

/-- The `originalStr` computation of `AnonymiseRow` lines 58-67: strings are
kept, everything else (including nil) becomes the empty string. -/
def stringifyOriginal : GoValue → String
  | .vstring s => s
  | _ => ""

/-- One iteration of the `for col, rule := range tableConfig.Columns` loop
of `AnonymiseRow` (lines 45-98): skip columns absent from the row; a
`"null"`/empty rule stores SQL NULL; a faker template consults the
consistency map, generating and (for a non-empty original string) caching a
substitute on a miss; any other rule text is a static replacement. -/
def applyRule (gen : Nat → String) (acc : Row × AnonState) (cr : String × String) :
    Row × AnonState :=
  match acc.1.lookup cr.1 with
  | none => acc
  | some originalVal =>
    if cr.2 = "null" ∨ cr.2 = "" then (rowSet acc.1 cr.1 .vnil, acc.2)
    else
      let originalStr := stringifyOriginal originalVal
      match parseFakerTemplate cr.2 with
      | some funcName =>
        let key := cr.1 ++ ":" ++ originalStr
        match acc.2.consistencyMap.lookup key with
        | some cached => (rowSet acc.1 cr.1 (.vstring cached), acc.2)
        | none =>
          let g := generateFakeValue gen acc.2 funcName
          let st2 := if originalStr = "" then g.2
                     else { g.2 with consistencyMap := (key, g.1) :: g.2.consistencyMap }
          (rowSet acc.1 cr.1 (.vstring g.1), st2)
      | none => (rowSet acc.1 cr.1 (.vstring cr.2), acc.2)

/-- `AnonymiseRow`: unconfigured tables (or nil `Columns`) pass through;
otherwise the rules are folded over a copy of the row.  The rule list's
order stands for the Go map iteration order. -/
def anonymiseRow (gen : Nat → String) (cfg : Config) (st : AnonState)
    (tableName : String) (row : Row) : Row × AnonState :=
  match getTableConfig cfg tableName with
  | none => (row, st)
  | some tableConfig =>
    match tableConfig.columns with
    | none => (row, st)
    | some rules => rules.foldl (applyRule gen) (row, st)

/-- A sequence of `AnonymiseRow` calls within one export run (only the state
is threaded). -/
def anonymiseMany (gen : Nat → String) (cfg : Config) (st : AnonState)
    (jobs : List (String × Row)) : AnonState :=
  jobs.foldl (fun s j => (anonymiseRow gen cfg s j.1 j.2).2) st

def squote : String := String.singleton (Char.ofNat 39)

/-- The warning text of `ValidateRules` (line 182). -/
def unknownFakerMsg (funcName tableName col : String) : String :=
  "unknown faker function " ++ squote ++ funcName ++ squote ++ " for "
    ++ tableName ++ "." ++ col

/-- `ValidateRules` (lines 167-189): one warning per faker-templated rule
whose generator name is not registered. -/
def validateRules (cfg : Config) : List String :=
  match cfg.configuration with
  | none => []
  | some entries =>
    entries.flatMap fun p =>
      match p.2 with
      | none => []
      | some tc =>
        match tc.columns with
        | none => []
        | some rules =>
          rules.flatMap fun cr =>
            match parseFakerTemplate cr.2 with
            | some funcName =>
              if funcName ∈ knownFakerNames then []
              else [unknownFakerMsg funcName p.1 cr.1]
            | none => []

lemma lookup_mem {β : Type} {l : List (String × β)} {a : String} {b : β}
    (h : l.lookup a = some b) : (a, b) ∈ l := by
  obtain ⟨l₁, l₂, rfl, -⟩ := List.lookup_eq_some_iff.mp h
  exact List.mem_append_right _ (List.mem_cons_self _ _)

lemma lookup_cons_miss {β : Type} {m : List (String × β)} {key k : String} {x v : β}
    (hnone : m.lookup key = none) (h : m.lookup k = some v) :
    ((key, x) :: m).lookup k = some v := by
  have hne : (k == key) = false := by
    apply beq_false_of_ne
    intro he
    rw [he] at h
    rw [hnone] at h
    cases h
  simp [List.lookup_cons, hne, h]

lemma rowSet_cons (p : String × GoValue) (rest : Row) (c : String) (v : GoValue) :
    rowSet (p :: rest) c v = (if p.1 = c then (p.1, v) else p) :: rowSet rest c v := rfl

lemma rowSet_map_fst (row : Row) (c : String) (v : GoValue) :
    (rowSet row c v).map Prod.fst = row.map Prod.fst := by
  induction row with
  | nil => rfl
  | cons p rest ih =>
    rw [rowSet_cons, List.map_cons, List.map_cons, ih]
    by_cases hp : p.1 = c
    · rw [if_pos hp]
    · rw [if_neg hp]

lemma rowSet_lookup_ne (row : Row) {c col : String} (v : GoValue) (h : col ≠ c) :
    (rowSet row c v).lookup col = row.lookup col := by
  induction row with
  | nil => rfl
  | cons p rest ih =>
    obtain ⟨k, w⟩ := p
    by_cases hk : k = c
    · subst hk
      have hf : (col == k) = false := beq_false_of_ne h
      simp [rowSet_cons, List.lookup_cons, hf, ih]
    · by_cases hcol : k = col
      · subst hcol
        simp [rowSet_cons, List.lookup_cons, hk]
      · have hf : (col == k) = false := beq_false_of_ne (fun h' => hcol h'.symm)
        simp [rowSet_cons, List.lookup_cons, hk, hf, ih]

lemma rowSet_lookup_self (row : Row) {c : String} (v : GoValue) {u : GoValue}
    (h : row.lookup c = some u) : (rowSet row c v).lookup c = some v := by
  induction row with
  | nil => simp [List.lookup] at h
  | cons p rest ih =>
    obtain ⟨k, w⟩ := p
    by_cases hk : k = c
    · subst hk
      simp [rowSet_cons, List.lookup_cons]
    · have hf : (c == k) = false := beq_false_of_ne (fun h' => hk h'.symm)
      simp only [List.lookup_cons, hf, Bool.false_eq_true, if_false] at h
      simp [rowSet_cons, List.lookup_cons, hk, hf, ih h]

lemma generateFakeValue_map (gen : Nat → String) (st : AnonState) (fn : String) :
    (generateFakeValue gen st fn).2.consistencyMap = st.consistencyMap := by
  unfold generateFakeValue
  split <;> rfl

lemma parseFakerTemplate_null : parseFakerTemplate "null" = none := by decide

lemma parseFakerTemplate_empty : parseFakerTemplate "" = none := by decide

lemma applyRule_fst_cases (gen : Nat → String) (acc : Row × AnonState) (cr : String × String) :
    (applyRule gen acc cr).1 = acc.1 ∨ ∃ x, (applyRule gen acc cr).1 = rowSet acc.1 cr.1 x := by
  unfold applyRule
  split
  · exact Or.inl rfl
  · split
    · exact Or.inr ⟨_, rfl⟩
    · split
      · dsimp only
        split
        · exact Or.inr ⟨_, rfl⟩
        · exact Or.inr ⟨_, rfl⟩
      · exact Or.inr ⟨_, rfl⟩

lemma applyRule_map_fst (gen : Nat → String) (acc : Row × AnonState) (cr : String × String) :
    ((applyRule gen acc cr).1).map Prod.fst = acc.1.map Prod.fst := by
  rcases applyRule_fst_cases gen acc cr with h | ⟨x, h⟩
  · rw [h]
  · rw [h, rowSet_map_fst]

lemma applyRule_lookup_ne (gen : Nat → String) (acc : Row × AnonState) (cr : String × String)
    {col : String} (h : col ≠ cr.1) :
    ((applyRule gen acc cr).1).lookup col = acc.1.lookup col := by
  rcases applyRule_fst_cases gen acc cr with hc | ⟨x, hc⟩
  · rw [hc]
  · rw [hc, rowSet_lookup_ne _ _ h]

lemma applyRule_consistency_mono (gen : Nat → String) (acc : Row × AnonState)
    (cr : String × String) {k : String} {v : String}
    (h : acc.2.consistencyMap.lookup k = some v) :
    ((applyRule gen acc cr).2).consistencyMap.lookup k = some v := by
  unfold applyRule
  split
  · exact h
  · split
    · exact h
    · split
      · dsimp only
        split
        · exact h
        · next hnone =>
          dsimp only
          split
          · rw [generateFakeValue_map]
            exact h
          · simp only [generateFakeValue_map]
            exact lookup_cons_miss hnone h
      · exact h

lemma foldl_applyRule_map_fst (gen : Nat → String) :
    ∀ (rules : List (String × String)) (acc : Row × AnonState),
      ((rules.foldl (applyRule gen) acc).1).map Prod.fst = acc.1.map Prod.fst := by
  intro rules
  induction rules with
  | nil => intro acc; rfl
  | cons cr rest ih =>
    intro acc
    rw [List.foldl_cons, ih, applyRule_map_fst]

lemma foldl_applyRule_lookup_notin (gen : Nat → String) :
    ∀ (rules : List (String × String)) (acc : Row × AnonState) (col : String),
      col ∉ rules.map Prod.fst →
      ((rules.foldl (applyRule gen) acc).1).lookup col = acc.1.lookup col := by
  intro rules
  induction rules with
  | nil => intro acc col _; rfl
  | cons cr rest ih =>
    intro acc col hcol
    simp only [List.map_cons, List.mem_cons, not_or] at hcol
    rw [List.foldl_cons, ih _ _ hcol.2, applyRule_lookup_ne gen _ _ hcol.1]

lemma foldl_applyRule_mono (gen : Nat → String) :
    ∀ (rules : List (String × String)) (acc : Row × AnonState) {k v : String},
      acc.2.consistencyMap.lookup k = some v →
      ((rules.foldl (applyRule gen) acc).2).consistencyMap.lookup k = some v := by
  intro rules
  induction rules with
  | nil => intro acc k v h; exact h
  | cons cr rest ih =>
    intro acc k v h
    rw [List.foldl_cons]
    exact ih _ (applyRule_consistency_mono gen _ _ h)

lemma applyRule_faker_step (gen : Nat → String) (acc : Row × AnonState)
    (col rule fn s : String) (hs : s ≠ "")
    (hfaker : parseFakerTemplate rule = some fn)
    (hrow : acc.1.lookup col = some (.vstring s)) :
    ∃ v st', applyRule gen acc (col, rule) = (rowSet acc.1 col (.vstring v), st') ∧
      st'.consistencyMap.lookup (col ++ ":" ++ s) = some v ∧
      (∀ w, acc.2.consistencyMap.lookup (col ++ ":" ++ s) = some w → v = w) ∧
      (∀ k u, acc.2.consistencyMap.lookup k = some u →
        st'.consistencyMap.lookup k = some u) := by
  have hnn : ¬(rule = "null" ∨ rule = "") := by
    rintro (rfl | rfl)
    · rw [parseFakerTemplate_null] at hfaker; cases hfaker
    · rw [parseFakerTemplate_empty] at hfaker; cases hfaker
  simp only [applyRule, hrow, if_neg hnn, hfaker, stringifyOriginal]
  cases hcache : acc.2.consistencyMap.lookup (col ++ ":" ++ s) with
  | some cached =>
    simp only [hcache]
    refine ⟨cached, acc.2, rfl, hcache, ?_, fun k u h => h⟩
    intro w hw
    cases hw
    rfl
  | none =>
    simp only [hcache, if_neg hs]
    refine ⟨(generateFakeValue gen acc.2 fn).1, _, rfl, ?_, ?_, ?_⟩
    · simp [generateFakeValue_map, List.lookup_cons_self]
    · intro w hw
      cases hw
    · intro k u h
      simp only [generateFakeValue_map]
      exact lookup_cons_miss hcache h

lemma foldl_applyRule_faker (gen : Nat → String) (col rule fn s : String)
    (hfaker : parseFakerTemplate rule = some fn) (hs : s ≠ "") :
    ∀ (rules : List (String × String)) (acc : Row × AnonState),
      (rules.map Prod.fst).Nodup →
      rules.lookup col = some rule →
      acc.1.lookup col = some (.vstring s) →
      ∃ v,
        ((rules.foldl (applyRule gen) acc).1).lookup col = some (.vstring v) ∧
        ((rules.foldl (applyRule gen) acc).2).consistencyMap.lookup (col ++ ":" ++ s) =
          some v ∧
        (∀ w, acc.2.consistencyMap.lookup (col ++ ":" ++ s) = some w → v = w) := by
  intro rules
  induction rules with
  | nil => intro acc _ hl; simp [List.lookup] at hl
  | cons cr rest ih =>
    intro acc hnd hl hr
    obtain ⟨c0, r0⟩ := cr
    by_cases hc : c0 = col
    · subst hc
      have hr0 : rule = r0 := by
        rw [List.lookup_cons_self] at hl
        exact (Option.some.inj hl).symm
      subst hr0
      have hnd2 := hnd
      rw [List.map_cons] at hnd2
      have hnotin : c0 ∉ rest.map Prod.fst := (List.nodup_cons.mp hnd2).1
      obtain ⟨v, st', hstep, hmap, hold, _⟩ :=
        applyRule_faker_step gen acc c0 rule fn s hs hfaker hr
      rw [List.foldl_cons, hstep]
      refine ⟨v, ?_, ?_, hold⟩
      · rw [foldl_applyRule_lookup_notin gen rest _ c0 hnotin]
        exact rowSet_lookup_self _ _ hr
      · exact foldl_applyRule_mono gen rest _ hmap
    · have hc0 : (col == c0) = false := beq_false_of_ne (fun h' => hc h'.symm)
      have hl' : rest.lookup col = some rule := by
        simpa [List.lookup_cons, hc0] using hl
      have hr' : ((applyRule gen acc (c0, r0)).1).lookup col = some (.vstring s) := by
        rw [applyRule_lookup_ne gen _ _ (fun h => hc h.symm)]
        exact hr
      have hnd2 := hnd
      rw [List.map_cons] at hnd2
      have hnd' : (rest.map Prod.fst).Nodup := (List.nodup_cons.mp hnd2).2
      rw [List.foldl_cons]
      obtain ⟨v, h1, h2, h3⟩ := ih (applyRule gen acc (c0, r0)) hnd' hl' hr'
      exact ⟨v, h1, h2, fun w hw => h3 w (applyRule_consistency_mono gen _ _ hw)⟩

lemma anonymiseRow_consistency_mono (gen : Nat → String) (cfg : Config) (st : AnonState)
    (t : String) (row : Row) {k v : String}
    (h : st.consistencyMap.lookup k = some v) :
    ((anonymiseRow gen cfg st t row).2).consistencyMap.lookup k = some v := by
  unfold anonymiseRow
  split
  · exact h
  · split
    · exact h
    · exact foldl_applyRule_mono gen _ _ h

lemma anonymiseMany_mono (gen : Nat → String) (cfg : Config) :
    ∀ (jobs : List (String × Row)) (st : AnonState) {k v : String},
      st.consistencyMap.lookup k = some v →
      (anonymiseMany gen cfg st jobs).consistencyMap.lookup k = some v := by
  intro jobs
  induction jobs with
  | nil => intro st k v h; exact h
  | cons j rest ih =>
    intro st k v h
    exact ih _ (anonymiseRow_consistency_mono gen cfg st j.1 j.2 h)

lemma anonymiseRow_rules (gen : Nat → String) (cfg : Config) (st : AnonState)
    (t : String) (row : Row) {tc : TableConfig} {rules : List (String × String)}
    (hcfg : getTableConfig cfg t = some tc) (hcols : tc.columns = some rules) :
    anonymiseRow gen cfg st t row = rules.foldl (applyRule gen) (row, st) := by
  simp only [anonymiseRow, hcfg, hcols]

/-- C3 as stated is false: two rows carrying the same non-string original
value (here `int64 42`) in a faker-ruled column receive different
substitutes, because a non-string value is stringified to `""`, which
bypasses the consistency map. -/
theorem anonymiser_nonstring_value_cex :
    ((anonymiseRow (fun n => Nat.repr n)
        { configuration := some [("t", some { columns := some [("n", "\x7b\x7bfaker.number\x7d\x7d")] })] }
        ((anonymiseRow (fun n => Nat.repr n)
          { configuration := some [("t", some { columns := some [("n", "\x7b\x7bfaker.number\x7d\x7d")] })] }
          {} "t" [("n", GoValue.vint64 42)]).2)
        "t" [("n", GoValue.vint64 42)]).1).lookup "n" ≠
      ((anonymiseRow (fun n => Nat.repr n)
        { configuration := some [("t", some { columns := some [("n", "\x7b\x7bfaker.number\x7d\x7d")] })] }
        {} "t" [("n", GoValue.vint64 42)]).1).lookup "n" := by
  decide

/-- C3 (amended): within one run, for every `FakerTemplate`-ruled column,
all rows whose original value in that column is the same *non-empty string*
receive the identical substitute from `AnonymiseRow` (any rows for other
tables may be processed in between); the consistency-map key is
`column ++ ":" ++ originalValue` for string values.  Non-string originals
are stringified to `""` and bypass the map (see the counterexample). -/
theorem anonymiser_consistent_same_column (gen : Nat → String) (cfg : Config)
    (t : String) (tc : TableConfig) (rules : List (String × String))
    (col rule fn s : String) (st0 : AnonState)
    (r1 r2 : Row) (mid : List (String × Row))
    (hcfg : getTableConfig cfg t = some tc)
    (hcols : tc.columns = some rules)
    (hnd : (rules.map Prod.fst).Nodup)
    (hrule : rules.lookup col = some rule)
    (hfaker : parseFakerTemplate rule = some fn)
    (hs : s ≠ "")
    (h1 : r1.lookup col = some (.vstring s))
    (h2 : r2.lookup col = some (.vstring s)) :
    ((anonymiseRow gen cfg
        (anonymiseMany gen cfg (anonymiseRow gen cfg st0 t r1).2 mid) t r2).1).lookup col =
      ((anonymiseRow gen cfg st0 t r1).1).lookup col := by
  rw [anonymiseRow_rules gen cfg st0 t r1 hcfg hcols]
  obtain ⟨v1, hrow1, hmap1, _⟩ :=
    foldl_applyRule_faker gen col rule fn s hfaker hs rules (r1, st0) hnd hrule h1
  have hmid : (anonymiseMany gen cfg (rules.foldl (applyRule gen) (r1, st0)).2 mid).consistencyMap.lookup
      (col ++ ":" ++ s) = some v1 := anonymiseMany_mono gen cfg mid _ hmap1
  rw [anonymiseRow_rules gen cfg _ t r2 hcfg hcols]
  obtain ⟨v2, hrow2, _, hold2⟩ :=
    foldl_applyRule_faker gen col rule fn s hfaker hs rules
      (r2, anonymiseMany gen cfg (rules.foldl (applyRule gen) (r1, st0)).2 mid) hnd hrule h2
  rw [hrow1, hrow2, hold2 v1 hmid]

/-- Witness for C3 (amended) at a concrete configuration: two rows of table
`"t"` sharing email `"a@x.com"`. -/
theorem anonymiser_consistent_same_column_witness :
    ((anonymiseRow (fun n => Nat.repr n)
        { configuration := some [("t", some { columns := some [("email", "\x7b\x7bfaker.email\x7d\x7d")] })] }
        (anonymiseMany (fun n => Nat.repr n)
          { configuration := some [("t", some { columns := some [("email", "\x7b\x7bfaker.email\x7d\x7d")] })] }
          ((anonymiseRow (fun n => Nat.repr n)
            { configuration := some [("t", some { columns := some [("email", "\x7b\x7bfaker.email\x7d\x7d")] })] }
            {} "t" [("email", GoValue.vstring "a@x.com")]).2) [])
        "t" [("email", GoValue.vstring "a@x.com")]).1).lookup "email" =
      ((anonymiseRow (fun n => Nat.repr n)
        { configuration := some [("t", some { columns := some [("email", "\x7b\x7bfaker.email\x7d\x7d")] })] }
        {} "t" [("email", GoValue.vstring "a@x.com")]).1).lookup "email" :=
  anonymiser_consistent_same_column (fun n => Nat.repr n) _ "t"
    { columns := some [("email", "\x7b\x7bfaker.email\x7d\x7d")] }
    [("email", "\x7b\x7bfaker.email\x7d\x7d")]
    "email" "\x7b\x7bfaker.email\x7d\x7d" "email" "a@x.com" {}
    [("email", GoValue.vstring "a@x.com")] [("email", GoValue.vstring "a@x.com")] []
    (by decide) (by decide) (by decide) (by decide) (by decide) (by decide)
    (by decide) (by decide)

/-- C7: the consistency map is keyed by column name only, not qualified by
table: two different tables whose same-named column is faker-ruled give two
rows carrying the same original string the same substitute within one run. -/
theorem anonymiser_consistent_cross_table (gen : Nat → String) (cfg : Config)
    (t1 t2 : String) (tc1 tc2 : TableConfig)
    (rules1 rules2 : List (String × String))
    (col rule1 rule2 fn1 fn2 s : String) (st0 : AnonState) (r1 r2 : Row)
    (hcfg1 : getTableConfig cfg t1 = some tc1)
    (hcols1 : tc1.columns = some rules1)
    (hnd1 : (rules1.map Prod.fst).Nodup)
    (hrule1 : rules1.lookup col = some rule1)
    (hfaker1 : parseFakerTemplate rule1 = some fn1)
    (hcfg2 : getTableConfig cfg t2 = some tc2)
    (hcols2 : tc2.columns = some rules2)
    (hnd2 : (rules2.map Prod.fst).Nodup)
    (hrule2 : rules2.lookup col = some rule2)
    (hfaker2 : parseFakerTemplate rule2 = some fn2)
    (hs : s ≠ "")
    (h1 : r1.lookup col = some (.vstring s))
    (h2 : r2.lookup col = some (.vstring s)) :
    ((anonymiseRow gen cfg (anonymiseRow gen cfg st0 t1 r1).2 t2 r2).1).lookup col =
      ((anonymiseRow gen cfg st0 t1 r1).1).lookup col := by
  rw [anonymiseRow_rules gen cfg st0 t1 r1 hcfg1 hcols1]
  obtain ⟨v1, hrow1, hmap1, _⟩ :=
    foldl_applyRule_faker gen col rule1 fn1 s hfaker1 hs rules1 (r1, st0) hnd1 hrule1 h1
  rw [anonymiseRow_rules gen cfg _ t2 r2 hcfg2 hcols2]
  obtain ⟨v2, hrow2, _, hold2⟩ :=
    foldl_applyRule_faker gen col rule2 fn2 s hfaker2 hs rules2
      (r2, (rules1.foldl (applyRule gen) (r1, st0)).2) hnd2 hrule2 h2
  rw [hrow1, hrow2, hold2 v1 hmap1]

/-- Witness for C7: tables `"users"` and `"orders"` both rule column
`"email"`; rows in each share the original `"a@x.com"`. -/
theorem anonymiser_consistent_cross_table_witness :
    ((anonymiseRow (fun n => Nat.repr n)
        { configuration := some
            [("users", some { columns := some [("email", "\x7b\x7bfaker.email\x7d\x7d")] }),
             ("orders", some { columns := some [("email", "\x7b\x7bfaker.email\x7d\x7d")] })] }
        ((anonymiseRow (fun n => Nat.repr n)
          { configuration := some
              [("users", some { columns := some [("email", "\x7b\x7bfaker.email\x7d\x7d")] }),
               ("orders", some { columns := some [("email", "\x7b\x7bfaker.email\x7d\x7d")] })] }
          {} "users" [("email", GoValue.vstring "a@x.com")]).2)
        "orders" [("email", GoValue.vstring "a@x.com")]).1).lookup "email" =
      ((anonymiseRow (fun n => Nat.repr n)
        { configuration := some
            [("users", some { columns := some [("email", "\x7b\x7bfaker.email\x7d\x7d")] }),
             ("orders", some { columns := some [("email", "\x7b\x7bfaker.email\x7d\x7d")] })] }
        {} "users" [("email", GoValue.vstring "a@x.com")]).1).lookup "email" :=
  anonymiser_consistent_cross_table (fun n => Nat.repr n) _ "users" "orders"
    { columns := some [("email", "\x7b\x7bfaker.email\x7d\x7d")] }
    { columns := some [("email", "\x7b\x7bfaker.email\x7d\x7d")] }
    [("email", "\x7b\x7bfaker.email\x7d\x7d")] [("email", "\x7b\x7bfaker.email\x7d\x7d")]
    "email" "\x7b\x7bfaker.email\x7d\x7d" "\x7b\x7bfaker.email\x7d\x7d" "email" "email"
    "a@x.com" {} [("email", GoValue.vstring "a@x.com")] [("email", GoValue.vstring "a@x.com")]
    (by decide) (by decide) (by decide) (by decide) (by decide) (by decide) (by decide)
    (by decide) (by decide) (by decide) (by decide) (by decide) (by decide)

/-- C4 as stated is false: with the rule naming the unknown generator
`nope`, the column's original value `"real@example.com"` is *not* left
unchanged — `GenerateFakeValue` returns the empty string for an unknown
name and `AnonymiseRow` stores it. -/
theorem unknown_generator_cex :
    ((anonymiseRow (fun n => Nat.repr n)
        { configuration := some [("users", some { columns := some [("email", "\x7b\x7bfaker.nope\x7d\x7d")] })] }
        {} "users" [("email", GoValue.vstring "real@example.com")]).1).lookup "email" ≠
      some (GoValue.vstring "real@example.com") ∧
    ((anonymiseRow (fun n => Nat.repr n)
        { configuration := some [("users", some { columns := some [("email", "\x7b\x7bfaker.nope\x7d\x7d")] })] }
        {} "users" [("email", GoValue.vstring "real@example.com")]).1).lookup "email" =
      some (GoValue.vstring "") := by
  constructor
  · decide
  · decide

lemma applyRule_unknown_step (gen : Nat → String) (acc : Row × AnonState)
    (col rule fn : String) (origVal : GoValue)
    (hfaker : parseFakerTemplate rule = some fn)
    (hunknown : fn ∉ knownFakerNames)
    (hrow : acc.1.lookup col = some origVal) :
    (applyRule gen acc (col, rule)).1 = rowSet acc.1 col
      (.vstring ((acc.2.consistencyMap.lookup
        (col ++ ":" ++ stringifyOriginal origVal)).getD "")) := by
  have hnn : ¬(rule = "null" ∨ rule = "") := by
    rintro (rfl | rfl)
    · rw [parseFakerTemplate_null] at hfaker; cases hfaker
    · rw [parseFakerTemplate_empty] at hfaker; cases hfaker
  simp only [applyRule, hrow, if_neg hnn, hfaker]
  cases hl : acc.2.consistencyMap.lookup (col ++ ":" ++ stringifyOriginal origVal) with
  | some cached => simp [hl]
  | none => simp [hl, generateFakeValue, hunknown]

/-- C4 (amended): when a rule names a generator not in the registry, the
column is still overwritten, never left at its original value by design:
processing the rule assigns the consistency-map entry cached under the key
`column:originalString` when one is present (as when a same-named column
with the same original string was anonymised earlier in the run), and
otherwise the empty string that `GenerateFakeValue` returns for an unknown
name; the unknown name is reported by the validation pass as a non-fatal
warning message (printed with a `Warning:` prefix by the CLI), not an
error.  Stated for an iteration order of the rule map that reaches this
column first, over an arbitrary prior anonymiser state, which covers every
reachable consistency-map content at the processing point. -/
theorem unknown_generator_blank_and_warned (gen : Nat → String) (cfg : Config)
    (st : AnonState) (t : String) (tc : TableConfig)
    (entries : List (String × Option TableConfig))
    (rules rest : List (String × String)) (col rule fn : String)
    (origVal : GoValue) (row : Row)
    (hconf : cfg.configuration = some entries)
    (hentry : (t, some tc) ∈ entries)
    (hcfg : getTableConfig cfg t = some tc)
    (hcols : tc.columns = some rules)
    (hhead : rules = (col, rule) :: rest)
    (hrest : col ∉ rest.map Prod.fst)
    (hfaker : parseFakerTemplate rule = some fn)
    (hunknown : fn ∉ knownFakerNames)
    (hrow : row.lookup col = some origVal) :
    ((anonymiseRow gen cfg st t row).1).lookup col =
      some (.vstring ((st.consistencyMap.lookup
        (col ++ ":" ++ stringifyOriginal origVal)).getD "")) ∧
    unknownFakerMsg fn t col ∈ validateRules cfg := by
  constructor
  · rw [anonymiseRow_rules gen cfg st t row hcfg hcols, hhead, List.foldl_cons]
    have hstep := applyRule_unknown_step gen (row, st) col rule fn origVal
      hfaker hunknown hrow
    have hfold := foldl_applyRule_lookup_notin gen rest
      (applyRule gen (row, st) (col, rule)) col hrest
    rw [hfold, hstep]
    exact rowSet_lookup_self _ _ hrow
  · unfold validateRules
    rw [hconf]
    apply List.mem_flatMap.mpr
    refine ⟨(t, some tc), hentry, ?_⟩
    simp only [hcols]
    apply List.mem_flatMap.mpr
    refine ⟨(col, rule), by rw [hhead]; exact List.mem_cons_self _ _, ?_⟩
    simp [hfaker, hunknown]

/-- Witness for C4 (amended) at the concrete configuration of the
counterexample, exercising both branches: from the empty state the column
becomes the empty string; from a state already caching `"f0"` under
`email:real@example.com` the column becomes the cached `"f0"`, not the
empty string. -/
theorem unknown_generator_blank_and_warned_witness :
    (((anonymiseRow (fun n => Nat.repr n)
        { configuration := some [("users", some { columns := some [("email", "\x7b\x7bfaker.nope\x7d\x7d")] })] }
        {} "users" [("email", GoValue.vstring "real@example.com")]).1).lookup "email" =
      some (GoValue.vstring "") ∧
    unknownFakerMsg "nope" "users" "email" ∈ validateRules
      { configuration := some [("users", some { columns := some [("email", "\x7b\x7bfaker.nope\x7d\x7d")] })] }) ∧
    (((anonymiseRow (fun n => Nat.repr n)
        { configuration := some [("users", some { columns := some [("email", "\x7b\x7bfaker.nope\x7d\x7d")] })] }
        { consistencyMap := [("email:real@example.com", "f0")], counter := 1 }
        "users" [("email", GoValue.vstring "real@example.com")]).1).lookup "email" =
      some (GoValue.vstring "f0") ∧
    unknownFakerMsg "nope" "users" "email" ∈ validateRules
      { configuration := some [("users", some { columns := some [("email", "\x7b\x7bfaker.nope\x7d\x7d")] })] }) :=
  ⟨unknown_generator_blank_and_warned (fun n => Nat.repr n)
    { configuration := some [("users", some { columns := some [("email", "\x7b\x7bfaker.nope\x7d\x7d")] })] }
    {} "users" { columns := some [("email", "\x7b\x7bfaker.nope\x7d\x7d")] }
    [("users", some { columns := some [("email", "\x7b\x7bfaker.nope\x7d\x7d")] })]
    [("email", "\x7b\x7bfaker.nope\x7d\x7d")] [] "email" "\x7b\x7bfaker.nope\x7d\x7d" "nope"
    (GoValue.vstring "real@example.com") [("email", GoValue.vstring "real@example.com")]
    (by decide) (by decide) (by decide) (by decide) (by decide) (by decide) (by decide)
    (by decide) (by decide),
   unknown_generator_blank_and_warned (fun n => Nat.repr n)
    { configuration := some [("users", some { columns := some [("email", "\x7b\x7bfaker.nope\x7d\x7d")] })] }
    { consistencyMap := [("email:real@example.com", "f0")], counter := 1 }
    "users" { columns := some [("email", "\x7b\x7bfaker.nope\x7d\x7d")] }
    [("users", some { columns := some [("email", "\x7b\x7bfaker.nope\x7d\x7d")] })]
    [("email", "\x7b\x7bfaker.nope\x7d\x7d")] [] "email" "\x7b\x7bfaker.nope\x7d\x7d" "nope"
    (GoValue.vstring "real@example.com") [("email", GoValue.vstring "real@example.com")]
    (by decide) (by decide) (by decide) (by decide) (by decide) (by decide) (by decide)
    (by decide) (by decide)⟩

/-- `GetAnonymisedColumns` (lines 146-157): the ruled column names of a
table, empty for an unconfigured table or nil rule map. -/
def getAnonymisedColumns (cfg : Config) (tableName : String) : List String :=
  match getTableConfig cfg tableName with
  | none => []
  | some tc =>
    match tc.columns with
    | none => []
    | some rules => rules.map Prod.fst

/-- C9: `AnonymiseRow` is non-mutating (it builds a new row value — in this
pure embedding the input row is untouched by construction) and preserves the
row's key set exactly, so ruled columns absent from the input are never
added; every column not among the table's anonymised columns — in
particular every column of a table with no configuration or nil rule map —
keeps its original value, and an unconfigured table's row passes through
whole, state untouched. -/
theorem anonymiseRow_frame (gen : Nat → String) (cfg : Config) (st : AnonState)
    (t : String) (row : Row) :
    ((anonymiseRow gen cfg st t row).1).map Prod.fst = row.map Prod.fst ∧
    (∀ col : String, col ∉ getAnonymisedColumns cfg t →
      ((anonymiseRow gen cfg st t row).1).lookup col = row.lookup col) ∧
    (getTableConfig cfg t = none → anonymiseRow gen cfg st t row = (row, st)) := by
  refine ⟨?_, ?_, ?_⟩
  · unfold anonymiseRow
    split
    · rfl
    · split
      · rfl
      · exact foldl_applyRule_map_fst gen _ _
  · intro col hcol
    unfold anonymiseRow
    unfold getAnonymisedColumns at hcol
    split
    · rfl
    · next tc hc =>
      simp only [hc] at hcol
      split
      · rfl
      · next rules hcols =>
        simp only [hcols] at hcol
        exact foldl_applyRule_lookup_notin gen _ _ col hcol
  · intro hc
    unfold anonymiseRow
    rw [hc]

/-- Witness for C9: a table whose rules cover `"email"` only; the unruled
column `"id"` passes through, the key set is preserved, and an unconfigured
table passes through whole. -/
theorem anonymiseRow_frame_witness :
    (((anonymiseRow (fun n => Nat.repr n)
        { configuration := some [("users", some { columns := some [("email", "x")] })] }
        {} "users" [("id", GoValue.vint64 1), ("email", GoValue.vstring "a@x.com")]).1).map
          Prod.fst = ["id", "email"] ∧
      ((anonymiseRow (fun n => Nat.repr n)
        { configuration := some [("users", some { columns := some [("email", "x")] })] }
        {} "users" [("id", GoValue.vint64 1), ("email", GoValue.vstring "a@x.com")]).1).lookup
          "id" = some (GoValue.vint64 1)) ∧
    anonymiseRow (fun n => Nat.repr n)
        { configuration := some [("users", some { columns := some [("email", "x")] })] }
        {} "other" [("id", GoValue.vint64 1)] =
      ([("id", GoValue.vint64 1)], {}) := by
  have h := anonymiseRow_frame (fun n => Nat.repr n)
    { configuration := some [("users", some { columns := some [("email", "x")] })] }
    {} "users" [("id", GoValue.vint64 1), ("email", GoValue.vstring "a@x.com")]
  have h2 := anonymiseRow_frame (fun n => Nat.repr n)
    { configuration := some [("users", some { columns := some [("email", "x")] })] }
    {} "other" [("id", GoValue.vint64 1)]
  refine ⟨⟨?_, ?_⟩, h2.2.2 (by decide)⟩
  · rw [h.1]
    rfl
  · rw [h.2.1 "id" (by decide)]
    decide

/-! ### Schema analyser (`internal/schema`): dependency ordering

`SortTablesByDependency` builds the `dependencies` map (self references and
out-of-set edges dropped) and `topologicalSort` runs Kahn's algorithm over
it, appending any tables still unplaced (a genuine cycle) in input order.
Two Go `for ... range` loops iterate maps: the `dependents`/in-degree
construction iterates the `dependencies` map, whose iteration order is
unspecified — the embedding therefore takes that map as an association list
`iter` whose order stands for the iteration order, and the theorems
quantify over permutations of the list `buildDependencies` constructs.
The processing loop is embedded with explicit fuel chosen large enough
(`kahnLoopF_invariant` below shows the queue always empties within it). -/

/-- `ColumnInfo` from `internal/database/driver.go`. -/
structure ColumnInfo where
  name : String
  dataType : String
  isNullable : Bool
  default : Option String
deriving DecidableEq, Repr

/-- `TableInfo` from the schema analyser. -/
structure TableInfo where
  name : String
  createStmt : String := ""
  columns : List ColumnInfo := []
  rowCount : Int := 0
deriving DecidableEq, Repr

/-- `ForeignKey` from `internal/database/driver.go`. -/
structure ForeignKey where
  table : String
  column : String
  referencedTable : String
  referencedColumn : String
deriving DecidableEq, Repr

def tableNames (tables : List TableInfo) : List String :=
  tables.map (fun t => t.name)

/-- The `tableMap` built by `topologicalSort` lines 126-129: last assignment
per name wins; a missing name yields Go's zero `TableInfo`. -/
def tmOf (tables : List TableInfo) : String → TableInfo :=
  fun n => (tables.reverse.find? (fun t => t.name == n)).getD ⟨"", "", [], 0⟩

/-- The dependency-occurrence multiset of the `dependencies` map: one pair
`(table, dep)` per entry of each list. -/
def depOccs (iter : List (String × List String)) : List (String × String) :=
  iter.flatMap (fun p => p.2.map (fun d => (p.1, d)))

/-- The reverse adjacency (`dependents`) map of lines 108-115, built in the
map's iteration order: `dependents[dep]` collects the key `table` once per
occurrence of `dep` in `dependencies[table]`. -/
def buildDependents (iter : List (String × List String)) (c : String) : List String :=
  iter.flatMap (fun p => p.2.filterMap (fun d => if d = c then some p.1 else none))

/-- The in-degree of a table: one per dependency entry (lines 103-115; Go's
read of a missing key yields 0, matching the empty filter). -/
def initInDegree (iter : List (String × List String)) (n : String) : Int :=
  (((depOccs iter).filter (fun q => q.1 == n)).length : Int)

/-- Lines 140-146: decrement the in-degree of each dependent of the popped
table in order, collecting those that reach exactly zero (the new queue
entries, in iteration order). -/
def processDependents : List String → (String → Int) → ((String → Int) × List String)
  | [], f => (f, [])
  | d :: ds, f =>
    let f1 : String → Int := fun m => if m = d then f d - 1 else f m
    let r := processDependents ds f1
    if f d - 1 = 0 then (r.1, d :: r.2) else (r.1, r.2)

/-- Total positive in-degree over a support list (termination measure). -/
def degSum (f : String → Int) (support : List String) : Nat :=
  (support.map (fun n => (f n).toNat)).sum

/-- The `for len(queue) > 0` loop of lines 131-147.  The fuel argument is a
modelling artifact: `topologicalSort` supplies
`queue.length + degSum inDeg support`, and `kahnLoopF_invariant` proves the
queue always empties strictly within that bound, so the fuel-exhaustion
branch is never reached from `topologicalSort`. -/
def kahnLoopF (iter : List (String × List String)) (tm : String → TableInfo) :
    Nat → (String → Int) → List String → List TableInfo → List TableInfo
  | _, _, [], sorted => sorted
  | 0, _, _ :: _, sorted => sorted
  | fuel + 1, inDeg, current :: rest, sorted =>
    let pd := processDependents (buildDependents iter current) inDeg
    kahnLoopF iter tm fuel pd.1 (rest ++ pd.2) (sorted ++ [tm current])

/-- `topologicalSort` (lines 101-166): Kahn's algorithm seeded with the
zero-in-degree tables in input order, then (when tables remain, i.e. a
cycle) the unplaced tables appended in input order. -/
def topologicalSort (tables : List TableInfo) (iter : List (String × List String)) :
    List TableInfo :=
  let inDeg := initInDegree iter
  let queue := (tables.filter (fun t => inDeg t.name == 0)).map (fun t => t.name)
  let fuel := queue.length + degSum inDeg (iter.map Prod.fst).dedup
  let sorted := kahnLoopF iter (tmOf tables) fuel inDeg queue []
  if sorted.length ≠ tables.length then
    sorted ++ tables.filter (fun t => !((sorted.map (fun s => s.name)).contains t.name))
  else sorted

/-- The `dependencies` map built by `SortTablesByDependency` lines 70-89:
one key per table (first occurrence order), holding the referenced tables of
its foreign keys, in foreign-key order, restricted to the table set and with
self-references skipped. -/
def buildDependencies (tables : List TableInfo) (fks : List ForeignKey) :
    List (String × List String) :=
  (tableNames tables).dedup.map (fun n =>
    (n, (fks.filter (fun fk =>
          fk.table == n && (tableNames tables).contains fk.referencedTable &&
            fk.table != fk.referencedTable)).map (fun fk => fk.referencedTable)))

/-- `SortTablesByDependency` with the canonical iteration order (the
theorems quantify over all permutations of `buildDependencies`, covering
Go's unspecified map order). -/
def sortTablesByDependency (tables : List TableInfo) (fks : List ForeignKey) :
    List TableInfo :=
  topologicalSort tables (buildDependencies tables fks)

/-- The set of effective dependency edges: both endpoints in the table set,
self-references excluded. -/
def depPairs (tables : List TableInfo) (fks : List ForeignKey) : List (String × String) :=
  fks.filterMap (fun fk =>
    if fk.table ∈ tableNames tables ∧ fk.referencedTable ∈ tableNames tables ∧
        fk.table ≠ fk.referencedTable then
      some (fk.table, fk.referencedTable)
    else none)

/-- The in-degree restricted to dependencies not yet placed in `sortedN`. -/
def unsortedDeg (iter : List (String × List String)) (sortedN : List String)
    (n : String) : Nat :=
  ((depOccs iter).filter (fun q => q.1 == n && !(sortedN.contains q.2))).length

lemma find?_name_unique {l : List TableInfo} {t : TableInfo}
    (hnd : (l.map (fun t => t.name)).Nodup) (ht : t ∈ l) :
    l.find? (fun x => x.name == t.name) = some t := by
  induction l with
  | nil => cases ht
  | cons h rest ih =>
    rw [List.map_cons] at hnd
    obtain ⟨hh, hrest⟩ := List.nodup_cons.mp hnd
    rcases List.mem_cons.mp ht with rfl | htl
    · rw [List.find?_cons_of_pos _ (by simp)]
    · have hne : (h.name == t.name) = false := by
        apply beq_false_of_ne
        intro he
        exact hh (he ▸ List.mem_map_of_mem _ htl)
      rw [List.find?_cons_of_neg _ (by simp [hne])]
      exact ih hrest htl

lemma tmOf_eq_self {tables : List TableInfo} {t : TableInfo}
    (hnd : (tableNames tables).Nodup) (ht : t ∈ tables) :
    tmOf tables t.name = t := by
  unfold tmOf
  have hnd' : (tables.reverse.map (fun t => t.name)).Nodup := by
    rw [List.map_reverse]
    exact (List.nodup_reverse).mpr hnd
  rw [find?_name_unique hnd' (List.mem_reverse.mpr ht)]
  rfl

lemma tmOf_name {tables : List TableInfo} {n : String}
    (hnd : (tableNames tables).Nodup) (h : n ∈ tableNames tables) :
    (tmOf tables n).name = n := by
  obtain ⟨t, ht, rfl⟩ := List.mem_map.mp h
  rw [tmOf_eq_self hnd ht]

lemma tmOf_mem {tables : List TableInfo} {n : String}
    (hnd : (tableNames tables).Nodup) (h : n ∈ tableNames tables) :
    tmOf tables n ∈ tables := by
  obtain ⟨t, ht, rfl⟩ := List.mem_map.mp h
  rw [tmOf_eq_self hnd ht]
  exact ht

lemma processDependents_fst (l : List String) (f : String → Int) (n : String) :
    (processDependents l f).1 n = f n - l.count n := by
  induction l generalizing f with
  | nil => simp [processDependents]
  | cons d ds ih =>
    simp only [processDependents]
    rw [List.count_cons]
    by_cases hd : f d - 1 = 0 <;>
      [rw [if_pos hd]; rw [if_neg hd]] <;>
      · rw [ih]
        by_cases hn : n = d
        · subst hn
          simp only [if_pos rfl, beq_self_eq_true, if_true]
          push_cast
          omega
        · have : (d == n) = false := beq_false_of_ne (fun he => hn he.symm)
          simp only [if_neg hn, this, Bool.false_eq_true, if_false]
          omega

lemma processDependents_mem (l : List String) (f : String → Int) (n : String) :
    n ∈ (processDependents l f).2 ↔ (1 ≤ f n ∧ f n ≤ (l.count n : Int)) := by
  induction l generalizing f with
  | nil =>
    simp only [processDependents, List.not_mem_nil, List.count_nil, false_iff, not_and,
      Nat.cast_zero]
    omega
  | cons d ds ih =>
    simp only [processDependents]
    rw [List.count_cons]
    by_cases hd : f d - 1 = 0
    · rw [if_pos hd]
      by_cases hn : n = d
      · subst hn
        simp only [List.mem_cons, true_or, true_iff, beq_self_eq_true, if_true]
        push_cast
        omega
      · have hbeq : (d == n) = false := beq_false_of_ne (fun he => hn he.symm)
        simp only [List.mem_cons, hn, false_or, ih, if_neg hn, hbeq, Bool.false_eq_true,
          if_false]
        omega
    · rw [if_neg hd]
      by_cases hn : n = d
      · subst hn
        rw [ih]
        simp only [if_pos rfl, beq_self_eq_true, if_true]
        push_cast
        omega
      · have hbeq : (d == n) = false := beq_false_of_ne (fun he => hn he.symm)
        rw [ih]
        simp only [if_neg hn, hbeq, Bool.false_eq_true, if_false]
        omega

lemma processDependents_nodup (l : List String) (f : String → Int) :
    (processDependents l f).2.Nodup := by
  induction l generalizing f with
  | nil => simp [processDependents]
  | cons d ds ih =>
    simp only [processDependents]
    by_cases hd : f d - 1 = 0
    · rw [if_pos hd]
      refine List.nodup_cons.mpr ⟨?_, ih _⟩
      rw [processDependents_mem]
      rintro ⟨h1, -⟩
      rw [if_pos rfl] at h1
      omega
    · rw [if_neg hd]
      exact ih _

lemma degSum_update (support : List String) (hnd : support.Nodup) (f : String → Int)
    (d : String) (hd : d ∈ support) :
    degSum (fun m => if m = d then f d - 1 else f m) support + (f d).toNat =
      degSum f support + (f d - 1).toNat := by
  induction support with
  | nil => cases hd
  | cons x xs ih =>
    obtain ⟨hx, hxs⟩ := List.nodup_cons.mp hnd
    simp only [degSum, List.map_cons, List.sum_cons] at *
    rcases List.mem_cons.mp hd with rfl | hdx
    · rw [if_pos rfl]
      have heq : (xs.map fun n => ((fun m => if m = d then f d - 1 else f m) n).toNat) =
          xs.map fun n => (f n).toNat := by
        apply List.map_congr_left
        intro m hm
        simp only [if_neg (fun he : m = d => hx (he ▸ hm))]
      rw [heq]
      omega
    · rw [if_neg (fun he : x = d => hx (he ▸ hdx))]
      have := ih hxs hdx
      omega

lemma processDependents_degSum (l : List String) (f : String → Int) (support : List String)
    (hnd : support.Nodup) (hsub : ∀ n ∈ l, n ∈ support) :
    degSum (processDependents l f).1 support + (processDependents l f).2.length ≤
      degSum f support := by
  induction l generalizing f with
  | nil => simp [processDependents]
  | cons d ds ih =>
    simp only [processDependents]
    have hdsupp : d ∈ support := hsub d (List.mem_cons_self _ _)
    have hupd := degSum_update support hnd f d hdsupp
    have hih := ih (fun m => if m = d then f d - 1 else f m)
      (fun n hn => hsub n (List.mem_cons_of_mem _ hn))
    by_cases hd : f d - 1 = 0
    · rw [if_pos hd]
      simp only [List.length_cons]
      have h1 : (f d).toNat = 1 := by omega
      have h0 : (f d - 1).toNat = 0 := by omega
      omega
    · rw [if_neg hd]
      dsimp only
      omega

lemma entry_count (key : String) (ds : List String) (c n : String) :
    (ds.filterMap (fun d => if d = c then some key else none)).count n =
      (ds.map (fun d => (key, d))).count ((n, c) : String × String) := by
  induction ds with
  | nil => rfl
  | cons d rest ih =>
    simp only [List.filterMap_cons, List.map_cons]
    by_cases hdc : d = c
    · rw [if_pos hdc]
      subst hdc
      rw [List.count_cons, List.count_cons, ih]
      by_cases hkn : key = n
      · subst hkn
        simp
      · have h1 : (key == n) = false := beq_false_of_ne hkn
        have h2 : (((key, d) : String × String) == (n, d)) = false := by
          apply beq_false_of_ne
          intro he
          exact hkn (congrArg Prod.fst he)
        rw [h1, h2]
    · rw [if_neg hdc]
      rw [List.count_cons, ih]
      have h2 : (((key, d) : String × String) == (n, c)) = false := by
        apply beq_false_of_ne
        intro he
        exact hdc (congrArg Prod.snd he)
      rw [h2]
      simp

lemma buildDependents_count (iter : List (String × List String)) (c n : String) :
    (buildDependents iter c).count n = (depOccs iter).count (n, c) := by
  induction iter with
  | nil => rfl
  | cons p rest ih =>
    simp only [buildDependents, depOccs, List.flatMap_cons, List.count_append] at *
    rw [ih, entry_count]

lemma buildDependents_mem_keys {iter : List (String × List String)} {c n : String}
    (h : n ∈ buildDependents iter c) : n ∈ iter.map Prod.fst := by
  simp only [buildDependents, List.mem_flatMap] at h
  obtain ⟨p, hp, hn⟩ := h
  obtain ⟨d, _, he⟩ := List.mem_filterMap.mp hn
  have hpn : p.1 = n := by
    by_cases hdc : d = c
    · rw [if_pos hdc] at he
      exact Option.some.inj he
    · rw [if_neg hdc] at he
      cases he
  exact hpn ▸ List.mem_map_of_mem _ hp

lemma depOccs_mem_iff {iter : List (String × List String)} {a b : String} :
    (a, b) ∈ depOccs iter ↔ ∃ p ∈ iter, p.1 = a ∧ b ∈ p.2 := by
  simp only [depOccs, List.mem_flatMap, List.mem_map]
  constructor
  · rintro ⟨p, hp, d, hd, he⟩
    obtain ⟨h1, h2⟩ := Prod.mk.injEq .. ▸ he
    exact ⟨p, hp, by injection he with e1 e2; exact ⟨e1, e2 ▸ hd⟩⟩
  · rintro ⟨p, hp, rfl, hb⟩
    exact ⟨p, hp, b, hb, rfl⟩

lemma depOccs_fst_mem {iter : List (String × List String)} {a b : String}
    (h : (a, b) ∈ depOccs iter) : a ∈ iter.map Prod.fst := by
  obtain ⟨p, hp, rfl, -⟩ := depOccs_mem_iff.mp h
  exact List.mem_map_of_mem _ hp

lemma initInDegree_eq_unsorted (iter : List (String × List String)) (n : String) :
    initInDegree iter n = (unsortedDeg iter [] n : Int) := by
  unfold initInDegree unsortedDeg
  congr 2
  apply List.filter_congr
  intro q _
  simp

lemma filter_split_count (l : List (String × String)) (sortedN : List String) (c n : String)
    (hc : c ∉ sortedN) :
    (l.filter (fun q => q.1 == n && !((sortedN ++ [c]).contains q.2))).length +
        l.count ((n, c) : String × String) =
      (l.filter (fun q => q.1 == n && !(sortedN.contains q.2))).length := by
  induction l with
  | nil => rfl
  | cons q rest ih =>
    obtain ⟨q1, q2⟩ := q
    rw [List.count_cons, List.filter_cons, List.filter_cons]
    dsimp only
    by_cases h1 : q1 = n
    · have e1 : (q1 == n) = true := by simp [h1]
      by_cases h2 : q2 = c
      · have e2 : ((sortedN ++ [c]).contains q2) = true := by simp [h2]
        have e3 : (sortedN.contains q2) = false := by simp [h2, hc]
        have e4 : (((q1, q2) : String × String) == (n, c)) = true := by simp [h1, h2]
        rw [e1, e2, e3, e4]
        simp only [Bool.not_true, Bool.and_false, Bool.not_false, Bool.and_true,
          Bool.false_eq_true, if_false, beq_self_eq_true, if_true, eq_self_iff_true,
          List.length_cons]
        omega
      · have e23 : ((sortedN ++ [c]).contains q2) = (sortedN.contains q2) := by
          by_cases hq : q2 ∈ sortedN
          · simp [hq]
          · simp [hq, h2]
        have e4 : (((q1, q2) : String × String) == (n, c)) = false :=
          beq_false_of_ne (fun he => h2 (congrArg Prod.snd he))
        rw [e1, e23, e4]
        by_cases hq : (sortedN.contains q2) = true
        · rw [hq]
          simp only [Bool.not_true, Bool.and_false, Bool.false_eq_true, if_false]
          omega
        · have hq' : (sortedN.contains q2) = false := by
            cases hb : sortedN.contains q2
            · rfl
            · exact absurd hb hq
          rw [hq']
          simp only [Bool.not_false, Bool.and_true, Bool.true_and, eq_self_iff_true,
            if_true, Bool.false_eq_true, if_false, List.length_cons]
          omega
    · have e1 : (q1 == n) = false := beq_false_of_ne h1
      have e4 : (((q1, q2) : String × String) == (n, c)) = false :=
        beq_false_of_ne (fun he => h1 (congrArg Prod.fst he))
      rw [e1, e4]
      simp only [Bool.false_and, Bool.false_eq_true, if_false]
      omega

lemma unsortedDeg_append (iter : List (String × List String)) (sortedN : List String)
    (c : String) (hc : c ∉ sortedN) (n : String) :
    unsortedDeg iter (sortedN ++ [c]) n + (depOccs iter).count (n, c) =
      unsortedDeg iter sortedN n :=
  filter_split_count (depOccs iter) sortedN c n hc

lemma count_le_unsortedDeg (iter : List (String × List String)) (sortedN : List String)
    (c : String) (hc : c ∉ sortedN) (n : String) :
    (depOccs iter).count (n, c) ≤ unsortedDeg iter sortedN n := by
  have := unsortedDeg_append iter sortedN c hc n
  omega

lemma mem_of_unsortedDeg_zero {iter : List (String × List String)} {sortedN : List String}
    {n b : String} (h : unsortedDeg iter sortedN n = 0) (hb : (n, b) ∈ depOccs iter) :
    b ∈ sortedN := by
  by_contra hnb
  have hmem : (n, b) ∈ (depOccs iter).filter (fun q => q.1 == n && !(sortedN.contains q.2)) :=
    List.mem_filter.mpr ⟨hb, by simp [hnb]⟩
  unfold unsortedDeg at h
  rw [List.length_eq_zero] at h
  rw [h] at hmem
  cases hmem

lemma kahnLoopF_nil (iter : List (String × List String)) (tm : String → TableInfo)
    (fuel : Nat) (f : String → Int) (sorted : List TableInfo) :
    kahnLoopF iter tm fuel f [] sorted = sorted := by
  cases fuel <;> rfl

/-- The loop invariant of Kahn's algorithm, proved by induction on the fuel
(equivalently, the measure `queue.length + total positive in-degree`): the
placed tables are distinct known tables, every queued or placed name ends up
placed, a table never placed retains an unplaced dependency, and every
placed table appears after all its dependencies. -/
lemma kahnLoopF_invariant (tables : List TableInfo) (iter : List (String × List String))
    (hnames : (tableNames tables).Nodup)
    (hkeys : ∀ p ∈ iter, p.1 ∈ tableNames tables) :
    ∀ (fuel : Nat) (f : String → Int) (queue : List String) (sorted : List TableInfo),
      queue.length + degSum f ((iter.map Prod.fst).dedup) ≤ fuel →
      (∀ n, f n = (unsortedDeg iter (tableNames sorted) n : Int)) →
      (∀ n, n ∈ tableNames sorted ++ queue → f n = 0) →
      (tableNames sorted ++ queue).Nodup →
      (∀ n ∈ tableNames tables, f n = 0 → n ∈ tableNames sorted ++ queue) →
      (∀ n ∈ tableNames sorted ++ queue, n ∈ tableNames tables) →
      sorted = (tableNames sorted).map (tmOf tables) →
      (∀ a b, (a, b) ∈ depOccs iter → a ∈ tableNames sorted →
        b ∈ tableNames sorted ∧
          (tableNames sorted).indexOf b < (tableNames sorted).indexOf a) →
      ∀ res, res = kahnLoopF iter (tmOf tables) fuel f queue sorted →
        (tableNames res).Nodup ∧
        (∀ n ∈ tableNames res, n ∈ tableNames tables) ∧
        res = (tableNames res).map (tmOf tables) ∧
        (∀ n, n ∈ tableNames sorted ++ queue → n ∈ tableNames res) ∧
        (∀ n ∈ tableNames tables, n ∉ tableNames res →
          1 ≤ unsortedDeg iter (tableNames res) n) ∧
        (∀ a b, (a, b) ∈ depOccs iter → a ∈ tableNames res →
          b ∈ tableNames res ∧
            (tableNames res).indexOf b < (tableNames res).indexOf a) := by
  intro fuel
  induction fuel with
  | zero =>
    intro f queue sorted hμ I1 I2 I3 I4 I5 I0 I6 res hres
    have hq : queue = [] := by
      cases queue with
      | nil => rfl
      | cons c r => simp [List.length_cons] at hμ
    subst hq
    rw [kahnLoopF_nil] at hres
    subst hres
    simp only [List.append_nil] at I2 I3 I4 I5
    refine ⟨I3, I5, I0, fun n hn => by simpa using hn, ?_, I6⟩
    intro n hn hnot
    have hne : f n ≠ 0 := fun h0 => hnot (I4 n hn h0)
    have := I1 n
    omega
  | succ fuel ih =>
    intro f queue sorted hμ I1 I2 I3 I4 I5 I0 I6 res hres
    cases queue with
    | nil =>
      rw [kahnLoopF_nil] at hres
      subst hres
      simp only [List.append_nil] at I2 I3 I4 I5
      refine ⟨I3, I5, I0, fun n hn => by simpa using hn, ?_, I6⟩
      intro n hn hnot
      have hne : f n ≠ 0 := fun h0 => hnot (I4 n hn h0)
      have := I1 n
      omega
    | cons current rest =>
      have hcur_in : current ∈ tableNames tables := I5 current (by simp)
      have hfcur : f current = 0 := I2 current (by simp)
      have hdisj : List.Disjoint (tableNames sorted) (current :: rest) :=
        List.disjoint_of_nodup_append I3
      have hcur_notin_s0 : current ∉ tableNames sorted :=
        fun h => hdisj h (List.mem_cons_self _ _)
      have htmname : (tmOf tables current).name = current := tmOf_name hnames hcur_in
      have hs0' : tableNames (sorted ++ [tmOf tables current]) =
          tableNames sorted ++ [current] := by
        simp [tableNames, htmname]
      have hpdfst : ∀ n, (processDependents (buildDependents iter current) f).1 n =
          f n - ((depOccs iter).count (n, current) : Int) := by
        intro n
        rw [processDependents_fst, buildDependents_count]
      have hpdmem : ∀ n, n ∈ (processDependents (buildDependents iter current) f).2 ↔
          (1 ≤ f n ∧ f n ≤ ((depOccs iter).count (n, current) : Int)) := by
        intro n
        rw [processDependents_mem, buildDependents_count]
      have husplit : ∀ n, unsortedDeg iter (tableNames sorted ++ [current]) n +
          (depOccs iter).count (n, current) = unsortedDeg iter (tableNames sorted) n :=
        fun n => unsortedDeg_append iter (tableNames sorted) current hcur_notin_s0 n
      have I1N : ∀ n, (processDependents (buildDependents iter current) f).1 n =
          (unsortedDeg iter (tableNames (sorted ++ [tmOf tables current])) n : Int) := by
        intro n
        rw [hs0', hpdfst n, I1 n]
        have := husplit n
        omega
      have hsubsup : ∀ n ∈ buildDependents iter current, n ∈ (iter.map Prod.fst).dedup :=
        fun n hn => List.mem_dedup.mpr (buildDependents_mem_keys hn)
      have hdeg := processDependents_degSum (buildDependents iter current) f
        ((iter.map Prod.fst).dedup) (List.nodup_dedup _) hsubsup
      have hμN : (rest ++ (processDependents (buildDependents iter current) f).2).length +
          degSum (processDependents (buildDependents iter current) f).1
            ((iter.map Prod.fst).dedup) ≤ fuel := by
        simp only [List.length_append]
        simp only [List.length_cons] at hμ
        omega
      have I2N : ∀ n, n ∈ tableNames (sorted ++ [tmOf tables current]) ++
          (rest ++ (processDependents (buildDependents iter current) f).2) →
          (processDependents (buildDependents iter current) f).1 n = 0 := by
        intro n hn
        rw [hs0'] at hn
        rw [hpdfst n]
        have hcle : (depOccs iter).count (n, current) ≤ unsortedDeg iter (tableNames sorted) n := by
          have := husplit n
          omega
        have hzero_of_f : f n = 0 →
            (f n - ((depOccs iter).count (n, current) : Int)) = 0 := by
          intro h0
          have hu0 : unsortedDeg iter (tableNames sorted) n = 0 := by
            have := I1 n
            omega
          have : (depOccs iter).count (n, current) = 0 := by omega
          omega
        rcases List.mem_append.mp hn with hn1 | hn2
        · rcases List.mem_append.mp hn1 with hns | hnc
          · exact hzero_of_f (I2 n (List.mem_append_left _ hns))
          · have hnc' : n = current := by simpa using hnc
            subst hnc'
            exact hzero_of_f hfcur
        · rcases List.mem_append.mp hn2 with hnr | hnp
          · exact hzero_of_f (I2 n (List.mem_append_right _ (List.mem_cons_of_mem _ hnr)))
          · obtain ⟨hge, hle⟩ := (hpdmem n).mp hnp
            have := I1 n
            omega
      have I3N : (tableNames (sorted ++ [tmOf tables current]) ++
          (rest ++ (processDependents (buildDependents iter current) f).2)).Nodup := by
        rw [hs0', ← List.append_assoc]
        have hbase : ((tableNames sorted ++ [current]) ++ rest).Nodup := by
          simpa [List.append_assoc] using I3
        refine List.Nodup.append hbase (processDependents_nodup _ _) ?_
        intro a ha hb
        obtain ⟨hge, -⟩ := (hpdmem a).mp hb
        have hfa : f a = 0 := by
          apply I2
          simp only [List.mem_append, List.mem_cons, List.mem_singleton,
            List.not_mem_nil, or_false] at ha ⊢
          tauto
        omega
      have I4N : ∀ n ∈ tableNames tables,
          (processDependents (buildDependents iter current) f).1 n = 0 →
          n ∈ tableNames (sorted ++ [tmOf tables current]) ++
            (rest ++ (processDependents (buildDependents iter current) f).2) := by
        intro n hn h0
        rw [hs0']
        by_cases hf : f n = 0
        · have hmem := I4 n hn hf
          simp only [List.mem_append, List.mem_cons, List.mem_singleton] at hmem ⊢
          tauto
        · have h1 : 1 ≤ f n := by
            have := I1 n
            omega
          rw [hpdfst n] at h0
          have hmem := (hpdmem n).mpr ⟨h1, by omega⟩
          simp only [List.mem_append]
          exact Or.inr (Or.inr hmem)
      have I5N : ∀ n ∈ tableNames (sorted ++ [tmOf tables current]) ++
          (rest ++ (processDependents (buildDependents iter current) f).2),
          n ∈ tableNames tables := by
        intro n hn
        rw [hs0'] at hn
        rcases List.mem_append.mp hn with hn1 | hn2
        · rcases List.mem_append.mp hn1 with hns | hnc
          · exact I5 n (List.mem_append_left _ hns)
          · have : n = current := by simpa using hnc
            subst this
            exact hcur_in
        · rcases List.mem_append.mp hn2 with hnr | hnp
          · exact I5 n (List.mem_append_right _ (List.mem_cons_of_mem _ hnr))
          · obtain ⟨hge, hle⟩ := (hpdmem n).mp hnp
            have hcnt : 1 ≤ (depOccs iter).count (n, current) := by omega
            have hmem : ((n, current) : String × String) ∈ depOccs iter :=
              List.count_pos_iff.mp (by omega)
            have := depOccs_fst_mem hmem
            obtain ⟨p, hp, rfl⟩ := List.mem_map.mp this
            exact hkeys p hp
      have I0N : sorted ++ [tmOf tables current] =
          (tableNames (sorted ++ [tmOf tables current])).map (tmOf tables) := by
        rw [hs0', List.map_append, ← I0]
        rfl
      have I6N : ∀ a b, (a, b) ∈ depOccs iter →
          a ∈ tableNames (sorted ++ [tmOf tables current]) →
          b ∈ tableNames (sorted ++ [tmOf tables current]) ∧
            (tableNames (sorted ++ [tmOf tables current])).indexOf b <
              (tableNames (sorted ++ [tmOf tables current])).indexOf a := by
        intro a b hab ha
        rw [hs0'] at ha ⊢
        rcases List.mem_append.mp ha with has | hac
        · obtain ⟨hbs, hidx⟩ := I6 a b hab has
          refine ⟨List.mem_append_left _ hbs, ?_⟩
          rw [List.indexOf_append_of_mem hbs, List.indexOf_append_of_mem has]
          exact hidx
        · have ha' : a = current := by simpa using hac
          subst ha'
          have hu0 : unsortedDeg iter (tableNames sorted) a = 0 := by
            have := I1 a
            omega
          have hbs : b ∈ tableNames sorted := mem_of_unsortedDeg_zero hu0 hab
          refine ⟨List.mem_append_left _ hbs, ?_⟩
          rw [List.indexOf_append_of_mem hbs,
            List.indexOf_append_of_not_mem hcur_notin_s0]
          have hlt : (tableNames sorted).indexOf b < (tableNames sorted).length :=
            List.indexOf_lt_length.mpr hbs
          simp only [List.indexOf_cons_self]
          omega
      have hres' : res = kahnLoopF iter (tmOf tables) fuel
          (processDependents (buildDependents iter current) f).1
          (rest ++ (processDependents (buildDependents iter current) f).2)
          (sorted ++ [tmOf tables current]) := by
        rw [hres]
        rfl
      obtain ⟨K1, K2, K3, K4, K5, K6⟩ := ih
        (processDependents (buildDependents iter current) f).1
        (rest ++ (processDependents (buildDependents iter current) f).2)
        (sorted ++ [tmOf tables current]) hμN I1N I2N I3N I4N I5N I0N I6N res hres'
      refine ⟨K1, K2, K3, ?_, K5, K6⟩
      intro n hn
      apply K4
      rw [hs0']
      simp only [List.mem_append, List.mem_cons, List.mem_singleton] at hn ⊢
      tauto

lemma depOccs_perm_mem {iter₁ iter₂ : List (String × List String)} {a b : String}
    (hperm : iter₁.Perm iter₂) :
    ((a, b) ∈ depOccs iter₁ ↔ (a, b) ∈ depOccs iter₂) := by
  rw [depOccs_mem_iff, depOccs_mem_iff]
  constructor
  · rintro ⟨p, hp, h1, h2⟩
    exact ⟨p, hperm.mem_iff.mp hp, h1, h2⟩
  · rintro ⟨p, hp, h1, h2⟩
    exact ⟨p, hperm.mem_iff.mpr hp, h1, h2⟩

lemma depOccs_buildDependencies {tables : List TableInfo} {fks : List ForeignKey}
    {a b : String} :
    (a, b) ∈ depOccs (buildDependencies tables fks) ↔ (a, b) ∈ depPairs tables fks := by
  rw [depOccs_mem_iff]
  constructor
  · rintro ⟨p, hp, hpa, hb⟩
    unfold buildDependencies at hp
    obtain ⟨n, hn, he⟩ := List.mem_map.mp hp
    subst he
    dsimp only at hpa hb
    subst hpa
    obtain ⟨fk, hfk, hfkb⟩ := List.mem_map.mp hb
    obtain ⟨hfks, hcond⟩ := List.mem_filter.mp hfk
    simp only [Bool.and_eq_true, beq_iff_eq, bne_iff_ne, ne_eq] at hcond
    obtain ⟨⟨hta, hcont⟩, hne⟩ := hcond
    have hrefmem : fk.referencedTable ∈ tableNames tables := List.elem_iff.mp hcont
    unfold depPairs
    apply List.mem_filterMap.mpr
    refine ⟨fk, hfks, ?_⟩
    rw [if_pos ⟨hta ▸ List.mem_dedup.mp hn, hrefmem, hne⟩, hta, hfkb]
  · intro hmem
    unfold depPairs at hmem
    obtain ⟨fk, hfk, he⟩ := List.mem_filterMap.mp hmem
    split at he
    · next hcond =>
      obtain ⟨h1, h2, h3⟩ := hcond
      injection he with he'
      have ha : fk.table = a := congrArg Prod.fst he'
      have hb : fk.referencedTable = b := congrArg Prod.snd he'
      refine ⟨(a, (fks.filter (fun fk => fk.table == a &&
          (tableNames tables).contains fk.referencedTable &&
          fk.table != fk.referencedTable)).map (fun fk => fk.referencedTable)), ?_, rfl, ?_⟩
      · unfold buildDependencies
        exact List.mem_map_of_mem _ (List.mem_dedup.mpr (ha ▸ h1))
      · apply List.mem_map.mpr
        refine ⟨fk, List.mem_filter.mpr ⟨hfk, ?_⟩, hb⟩
        simp only [Bool.and_eq_true, beq_iff_eq, bne_iff_ne, ne_eq]
        exact ⟨⟨ha, List.elem_eq_true_of_mem h2⟩, h3⟩
    · cases he

lemma depPairs_mem_names {tables : List TableInfo} {fks : List ForeignKey} {a b : String}
    (h : (a, b) ∈ depPairs tables fks) :
    a ∈ tableNames tables ∧ b ∈ tableNames tables ∧ a ≠ b := by
  unfold depPairs at h
  obtain ⟨fk, _, he⟩ := List.mem_filterMap.mp h
  split at he
  · next hcond =>
    injection he with he'
    have ha : fk.table = a := congrArg Prod.fst he'
    have hb : fk.referencedTable = b := congrArg Prod.snd he'
    exact ⟨ha ▸ hcond.1, hb ▸ hcond.2.1, ha ▸ hb ▸ hcond.2.2⟩
  · cases he

lemma exists_unsorted_dep {iter : List (String × List String)} {s : List String} {n : String}
    (h : 1 ≤ unsortedDeg iter s n) : ∃ b, (n, b) ∈ depOccs iter ∧ b ∉ s := by
  unfold unsortedDeg at h
  obtain ⟨q, hq⟩ := List.exists_mem_of_length_pos h
  obtain ⟨hqm, hqc⟩ := List.mem_filter.mp hq
  obtain ⟨q1, q2⟩ := q
  simp only [Bool.and_eq_true, beq_iff_eq, Bool.not_eq_true'] at hqc
  obtain ⟨h1, h2⟩ := hqc
  refine ⟨q2, h1 ▸ hqm, ?_⟩
  intro hmem
  simp [hmem] at h2

lemma list_exists_min (r : String → Nat) :
    ∀ (l : List String), l ≠ [] → ∃ m ∈ l, ∀ x ∈ l, r m ≤ r x := by
  intro l
  induction l with
  | nil => intro h; cases h rfl
  | cons a rest ih =>
    intro _
    cases rest with
    | nil =>
      refine ⟨a, List.mem_cons_self _ _, ?_⟩
      intro x hx
      have : x = a := by simpa using hx
      subst this
      exact le_refl _
    | cons b r2 =>
      obtain ⟨m, hm, hmin⟩ := ih (by simp)
      by_cases hc : r a ≤ r m
      · refine ⟨a, List.mem_cons_self _ _, ?_⟩
        intro x hx
        rcases List.mem_cons.mp hx with rfl | hx'
        · exact le_refl _
        · exact le_trans hc (hmin x hx')
      · refine ⟨m, List.mem_cons_of_mem _ hm, ?_⟩
        intro x hx
        rcases List.mem_cons.mp hx with rfl | hx'
        · exact Nat.le_of_lt (Nat.lt_of_not_le hc)
        · exact hmin x hx'

lemma kahnLoopF_prefix (iter : List (String × List String)) (tm : String → TableInfo) :
    ∀ (fuel : Nat) (f : String → Int) (queue : List String) (sorted : List TableInfo),
      queue.length + degSum f ((iter.map Prod.fst).dedup) ≤ fuel →
      ∃ suffix, kahnLoopF iter tm fuel f queue sorted = sorted ++ queue.map tm ++ suffix := by
  intro fuel
  induction fuel with
  | zero =>
    intro f queue sorted hμ
    have hq : queue = [] := by
      cases queue with
      | nil => rfl
      | cons c r => simp [List.length_cons] at hμ
    subst hq
    exact ⟨[], by simp [kahnLoopF_nil]⟩
  | succ fuel ih =>
    intro f queue sorted hμ
    cases queue with
    | nil => exact ⟨[], by simp [kahnLoopF_nil]⟩
    | cons current rest =>
      have hsubsup : ∀ n ∈ buildDependents iter current, n ∈ (iter.map Prod.fst).dedup :=
        fun n hn => List.mem_dedup.mpr (buildDependents_mem_keys hn)
      have hdeg := processDependents_degSum (buildDependents iter current) f
        ((iter.map Prod.fst).dedup) (List.nodup_dedup _) hsubsup
      have hμN : (rest ++ (processDependents (buildDependents iter current) f).2).length +
          degSum (processDependents (buildDependents iter current) f).1
            ((iter.map Prod.fst).dedup) ≤ fuel := by
        simp only [List.length_append]
        simp only [List.length_cons] at hμ
        omega
      obtain ⟨suffix, hsuffix⟩ := ih (processDependents (buildDependents iter current) f).1
        (rest ++ (processDependents (buildDependents iter current) f).2)
        (sorted ++ [tm current]) hμN
      refine ⟨(processDependents (buildDependents iter current) f).2.map tm ++ suffix, ?_⟩
      have hstep : kahnLoopF iter tm (fuel + 1) f (current :: rest) sorted =
          kahnLoopF iter tm fuel (processDependents (buildDependents iter current) f).1
            (rest ++ (processDependents (buildDependents iter current) f).2)
            (sorted ++ [tm current]) := rfl
      rw [hstep, hsuffix]
      simp [List.map_append, List.append_assoc]

/-- The invariant instantiated at `topologicalSort`'s initial state: the
queue holds the zero-in-degree tables in input order and nothing is placed
yet. -/
lemma topologicalSort_phase1 (tables : List TableInfo) (iter : List (String × List String))
    (hnames : (tableNames tables).Nodup)
    (hkeys : ∀ p ∈ iter, p.1 ∈ tableNames tables)
    (res : List TableInfo)
    (hres : res = kahnLoopF iter (tmOf tables)
      (((tables.filter (fun t => initInDegree iter t.name == 0)).map (fun t => t.name)).length +
        degSum (initInDegree iter) ((iter.map Prod.fst).dedup))
      (initInDegree iter)
      ((tables.filter (fun t => initInDegree iter t.name == 0)).map (fun t => t.name)) []) :
    (tableNames res).Nodup ∧
    (∀ n ∈ tableNames res, n ∈ tableNames tables) ∧
    res = (tableNames res).map (tmOf tables) ∧
    (∀ n, n ∈ (tables.filter (fun t => initInDegree iter t.name == 0)).map (fun t => t.name) →
      n ∈ tableNames res) ∧
    (∀ n ∈ tableNames tables, n ∉ tableNames res →
      1 ≤ unsortedDeg iter (tableNames res) n) ∧
    (∀ a b, (a, b) ∈ depOccs iter → a ∈ tableNames res →
      b ∈ tableNames res ∧ (tableNames res).indexOf b < (tableNames res).indexOf a) := by
  have hmain := kahnLoopF_invariant tables iter hnames hkeys
    (((tables.filter (fun t => initInDegree iter t.name == 0)).map (fun t => t.name)).length +
      degSum (initInDegree iter) ((iter.map Prod.fst).dedup))
    (initInDegree iter)
    ((tables.filter (fun t => initInDegree iter t.name == 0)).map (fun t => t.name)) []
    (le_refl _)
    (fun n => initInDegree_eq_unsorted iter n)
    ?_ ?_ ?_ ?_ rfl ?_ res hres
  · obtain ⟨K1, K2, K3, K4, K5, K6⟩ := hmain
    refine ⟨K1, K2, K3, fun n hn => K4 n ?_, K5, K6⟩
    simp only [tableNames, List.map_nil, List.nil_append]
    exact hn
  · intro n hn
    simp only [tableNames, List.map_nil, List.nil_append] at hn
    obtain ⟨t, htf, rfl⟩ := List.mem_map.mp hn
    have := (List.mem_filter.mp htf).2
    simpa using this
  · simp only [tableNames, List.map_nil, List.nil_append]
    have hsub : List.Sublist
        ((tables.filter (fun t => initInDegree iter t.name == 0)).map (fun t => t.name))
        (tables.map (fun t => t.name)) :=
      List.Sublist.map _ (List.filter_sublist _)
    exact hnames.sublist hsub
  · intro n hn h0
    simp only [tableNames, List.map_nil, List.nil_append]
    obtain ⟨t, ht, rfl⟩ := List.mem_map.mp hn
    exact List.mem_map_of_mem _ (List.mem_filter.mpr ⟨ht, by simp [h0]⟩)
  · intro n hn
    simp only [tableNames, List.map_nil, List.nil_append] at hn
    obtain ⟨t, ht, rfl⟩ := List.mem_map.mp hn
    exact List.mem_map_of_mem _ (List.mem_of_mem_filter ht)
  · intro a b _ ha
    simp [tableNames] at ha

/-- `topologicalSort` unfolded around its Kahn phase. -/
lemma topologicalSort_cases (tables : List TableInfo) (iter : List (String × List String))
    (res : List TableInfo)
    (hres : res = kahnLoopF iter (tmOf tables)
      (((tables.filter (fun t => initInDegree iter t.name == 0)).map (fun t => t.name)).length +
        degSum (initInDegree iter) ((iter.map Prod.fst).dedup))
      (initInDegree iter)
      ((tables.filter (fun t => initInDegree iter t.name == 0)).map (fun t => t.name)) []) :
    topologicalSort tables iter =
      if res.length ≠ tables.length then
        res ++ tables.filter (fun t => !((res.map (fun s => s.name)).contains t.name))
      else res := by
  subst hres
  rfl

lemma buildDependencies_keys {tables : List TableInfo} {fks : List ForeignKey} :
    ∀ p ∈ buildDependencies tables fks, p.1 ∈ tableNames tables := by
  intro p hp
  unfold buildDependencies at hp
  obtain ⟨n, hn, he⟩ := List.mem_map.mp hp
  subst he
  exact List.mem_dedup.mp hn

lemma topologicalSort_perm_of_nodup (tables : List TableInfo) (fks : List ForeignKey)
    (iter : List (String × List String))
    (hperm : iter.Perm (buildDependencies tables fks))
    (hnames : (tableNames tables).Nodup) :
    (topologicalSort tables iter).Perm tables := by
  have hkeys : ∀ p ∈ iter, p.1 ∈ tableNames tables :=
    fun p hp => buildDependencies_keys p (hperm.subset hp)
  obtain ⟨res, hres⟩ : ∃ r, r = kahnLoopF iter (tmOf tables)
      (((tables.filter (fun t => initInDegree iter t.name == 0)).map (fun t => t.name)).length +
        degSum (initInDegree iter) ((iter.map Prod.fst).dedup))
      (initInDegree iter)
      ((tables.filter (fun t => initInDegree iter t.name == 0)).map (fun t => t.name)) [] :=
    ⟨_, rfl⟩
  obtain ⟨K1, K2, K3, _, _, _⟩ := topologicalSort_phase1 tables iter hnames hkeys res hres
  rw [topologicalSort_cases tables iter res hres]
  have hresnodup : res.Nodup := List.Nodup.of_map _ K1
  have htablesnodup : tables.Nodup := List.Nodup.of_map _ hnames
  have hmemchar : ∀ t, t ∈ res ↔ (t ∈ tables ∧ t.name ∈ tableNames res) := by
    intro t
    constructor
    · intro ht
      have ht' := ht
      rw [K3] at ht'
      obtain ⟨n, hn, he⟩ := List.mem_map.mp ht'
      have hntab := K2 n hn
      constructor
      · rw [← he]
        exact tmOf_mem hnames hntab
      · rw [← he, tmOf_name hnames hntab]
        exact hn
    · rintro ⟨ht, htn⟩
      rw [K3]
      exact List.mem_map.mpr ⟨t.name, htn, tmOf_eq_self hnames ht⟩
  have hpermfilter : res.Perm
      (tables.filter (fun t => (res.map (fun s => s.name)).contains t.name)) := by
    rw [List.perm_ext_iff_of_nodup hresnodup (htablesnodup.filter _)]
    intro t
    rw [List.mem_filter]
    constructor
    · intro ht
      obtain ⟨h1, h2⟩ := (hmemchar t).mp ht
      exact ⟨h1, List.elem_eq_true_of_mem h2⟩
    · rintro ⟨h1, h2⟩
      exact (hmemchar t).mpr ⟨h1, List.elem_iff.mp h2⟩
  by_cases hlen : res.length ≠ tables.length
  · rw [if_pos hlen]
    exact (hpermfilter.append_right _).trans
      (List.filter_append_perm (fun t => (res.map (fun s => s.name)).contains t.name) tables)
  · rw [if_neg hlen]
    have hlen' : res.length = tables.length := not_ne_iff.mp hlen
    have hfl : (tables.filter (fun t => (res.map (fun s => s.name)).contains t.name)).length =
        tables.length := by
      rw [← hpermfilter.length_eq, hlen']
    have hfeq : tables.filter (fun t => (res.map (fun s => s.name)).contains t.name) = tables :=
      List.Sublist.eq_of_length (List.filter_sublist _) hfl
    exact hfeq ▸ hpermfilter

lemma topologicalSort_ordered (tables : List TableInfo) (fks : List ForeignKey)
    (iter : List (String × List String))
    (hperm : iter.Perm (buildDependencies tables fks))
    (hnames : (tableNames tables).Nodup)
    (r : String → Nat) (hr : ∀ p ∈ depPairs tables fks, r p.2 < r p.1) :
    ∀ A B, (A, B) ∈ depPairs tables fks →
      B ∈ tableNames (topologicalSort tables iter) ∧
      (tableNames (topologicalSort tables iter)).indexOf B <
        (tableNames (topologicalSort tables iter)).indexOf A := by
  have hkeys : ∀ p ∈ iter, p.1 ∈ tableNames tables :=
    fun p hp => buildDependencies_keys p (hperm.subset hp)
  obtain ⟨res, hres⟩ : ∃ r, r = kahnLoopF iter (tmOf tables)
      (((tables.filter (fun t => initInDegree iter t.name == 0)).map (fun t => t.name)).length +
        degSum (initInDegree iter) ((iter.map Prod.fst).dedup))
      (initInDegree iter)
      ((tables.filter (fun t => initInDegree iter t.name == 0)).map (fun t => t.name)) [] :=
    ⟨_, rfl⟩
  obtain ⟨K1, K2, _, _, K5, K6⟩ := topologicalSort_phase1 tables iter hnames hkeys res hres
  have htrans : ∀ a b, ((a, b) ∈ depPairs tables fks ↔ (a, b) ∈ depOccs iter) := fun a b =>
    (depOccs_buildDependencies.symm.trans (depOccs_perm_mem hperm).symm)
  have hcomplete : ∀ n ∈ tableNames tables, n ∈ tableNames res := by
    by_contra hnc
    push_neg at hnc
    obtain ⟨n0, hn0, hn0r⟩ := hnc
    have hS : n0 ∈ (tableNames tables).filter (fun n => !((tableNames res).contains n)) :=
      List.mem_filter.mpr ⟨hn0, by simp [hn0r]⟩
    obtain ⟨m, hmS, hmin⟩ := list_exists_min r _ (List.ne_nil_of_mem hS)
    obtain ⟨hmtab, hmc⟩ := List.mem_filter.mp hmS
    have hmnotres : m ∉ tableNames res := by
      intro hmem
      simp [hmem] at hmc
    obtain ⟨d, hd, hdnot⟩ := exists_unsorted_dep (K5 m hmtab hmnotres)
    have hdp : (m, d) ∈ depPairs tables fks := (htrans m d).mpr hd
    have hdnames := (depPairs_mem_names hdp).2.1
    have hdS : d ∈ (tableNames tables).filter (fun n => !((tableNames res).contains n)) :=
      List.mem_filter.mpr ⟨hdnames, by simp [hdnot]⟩
    have hmd := hmin d hdS
    have hrd : r d < r m := hr (m, d) hdp
    omega
  have hnperm : (tableNames res).Perm (tableNames tables) := by
    rw [List.perm_ext_iff_of_nodup K1 hnames]
    intro n
    exact ⟨fun h => K2 n h, fun h => hcomplete n h⟩
  have hlen : res.length = tables.length := by
    have := hnperm.length_eq
    simpa [tableNames] using this
  rw [topologicalSort_cases tables iter res hres, if_neg (not_ne_iff.mpr hlen)]
  intro A B hAB
  exact K6 A B ((htrans A B).mp hAB) (hcomplete A (depPairs_mem_names hAB).1)

/-- C1 as stated is false: with two input tables sharing the name `"a"`
(distinguished by their schema text) and a foreign key `a -> b`, the result
has only two entries — a table is silently dropped, so the output is not a
permutation of the input list. -/
theorem sort_duplicate_names_cex :
    ¬ (sortTablesByDependency
        [⟨"a", "s1", [], 0⟩, ⟨"a", "s2", [], 0⟩, ⟨"b", "", [], 0⟩]
        [⟨"a", "b_id", "b", "id"⟩]).Perm
      [⟨"a", "s1", [], 0⟩, ⟨"a", "s2", [], 0⟩, ⟨"b", "", [], 0⟩] := by
  intro h
  have hl := h.length_eq
  have h2 : (sortTablesByDependency
      [⟨"a", "s1", [], 0⟩, ⟨"a", "s2", [], 0⟩, ⟨"b", "", [], 0⟩]
      [⟨"a", "b_id", "b", "id"⟩]).length = 2 := by decide
  rw [h2] at hl
  cases hl

/-- C1 (amended): for every input list of tables *with pairwise-distinct
names* and every set of foreign-key edges (self-references and cycles
included), the dependency ordering returns a permutation of the input —
every input table appears exactly once, none is dropped — and this holds
for every iteration order of the Go `dependencies` map; the Go function's
error value is structurally always nil (no code path reports a cycle). -/
theorem sortTablesByDependency_perm (tables : List TableInfo) (fks : List ForeignKey)
    (iter : List (String × List String))
    (hperm : iter.Perm (buildDependencies tables fks))
    (hnames : (tableNames tables).Nodup) :
    (topologicalSort tables iter).Perm tables :=
  topologicalSort_perm_of_nodup tables fks iter hperm hnames

/-- Witness for C1 (amended) on a two-table cycle `a -> b -> a`: all tables
still come back, exactly once. -/
theorem sortTablesByDependency_perm_witness :
    (topologicalSort [⟨"a", "", [], 0⟩, ⟨"b", "", [], 0⟩]
      (buildDependencies [⟨"a", "", [], 0⟩, ⟨"b", "", [], 0⟩]
        [⟨"a", "b_id", "b", "id"⟩, ⟨"b", "a_id", "a", "id"⟩])).Perm
    [⟨"a", "", [], 0⟩, ⟨"b", "", [], 0⟩] :=
  sortTablesByDependency_perm [⟨"a", "", [], 0⟩, ⟨"b", "", [], 0⟩]
    [⟨"a", "b_id", "b", "id"⟩, ⟨"b", "a_id", "a", "id"⟩] _
    (List.Perm.refl _) (by decide)

/-- C2: for an acyclic effective edge set (witnessed by a ranking `r` that
strictly decreases along every edge), every edge's referenced table is
placed strictly before the referencing table, for every iteration order of
the dependencies map; self-referencing and out-of-set edges were already
excluded by `depPairs`/`buildDependencies`. -/
theorem sortTablesByDependency_respects_edges (tables : List TableInfo)
    (fks : List ForeignKey) (iter : List (String × List String))
    (hperm : iter.Perm (buildDependencies tables fks))
    (hnames : (tableNames tables).Nodup)
    (r : String → Nat) (hacyc : ∀ p ∈ depPairs tables fks, r p.2 < r p.1)
    (A B : String) (hAB : (A, B) ∈ depPairs tables fks) :
    (tableNames (topologicalSort tables iter)).indexOf B <
      (tableNames (topologicalSort tables iter)).indexOf A :=
  (topologicalSort_ordered tables fks iter hperm hnames r hacyc A B hAB).2

/-- Witness for C2 on the spec's scenario: input order `[orders, users]`
with `orders.user_id -> users.id`; `users` is placed before `orders`. -/
theorem sortTablesByDependency_respects_edges_witness :
    (tableNames (topologicalSort [⟨"orders", "", [], 0⟩, ⟨"users", "", [], 0⟩]
        (buildDependencies [⟨"orders", "", [], 0⟩, ⟨"users", "", [], 0⟩]
          [⟨"orders", "user_id", "users", "id"⟩]))).indexOf "users" <
      (tableNames (topologicalSort [⟨"orders", "", [], 0⟩, ⟨"users", "", [], 0⟩]
        (buildDependencies [⟨"orders", "", [], 0⟩, ⟨"users", "", [], 0⟩]
          [⟨"orders", "user_id", "users", "id"⟩]))).indexOf "orders" :=
  sortTablesByDependency_respects_edges [⟨"orders", "", [], 0⟩, ⟨"users", "", [], 0⟩]
    [⟨"orders", "user_id", "users", "id"⟩] _ (List.Perm.refl _) (by decide)
    (fun n => if n = "orders" then 1 else 0) (by decide) "orders" "users" (by decide)

/-- C6 as stated is false: with tables `[z, x, y]` and edges `x -> z`,
`y -> z`, the two map-iteration orders (both permutations of the built
dependencies map, which is all Go guarantees) yield different output
sequences; the second emits `y` before `x` although `x` precedes `y` in the
input and both became ready simultaneously. -/
theorem sort_tie_break_not_deterministic_cex :
    ([("z", ([] : List String)), ("y", ["z"]), ("x", ["z"])]).Perm
      (buildDependencies [⟨"z", "", [], 0⟩, ⟨"x", "", [], 0⟩, ⟨"y", "", [], 0⟩]
        [⟨"x", "zid", "z", "id"⟩, ⟨"y", "zid", "z", "id"⟩]) ∧
    tableNames (topologicalSort [⟨"z", "", [], 0⟩, ⟨"x", "", [], 0⟩, ⟨"y", "", [], 0⟩]
      [("z", []), ("y", ["z"]), ("x", ["z"])]) = ["z", "y", "x"] ∧
    topologicalSort [⟨"z", "", [], 0⟩, ⟨"x", "", [], 0⟩, ⟨"y", "", [], 0⟩]
        [("z", []), ("y", ["z"]), ("x", ["z"])] ≠
      topologicalSort [⟨"z", "", [], 0⟩, ⟨"x", "", [], 0⟩, ⟨"y", "", [], 0⟩]
        (buildDependencies [⟨"z", "", [], 0⟩, ⟨"x", "", [], 0⟩, ⟨"y", "", [], 0⟩]
          [⟨"x", "zid", "z", "id"⟩, ⟨"y", "zid", "z", "id"⟩]) := by
  refine ⟨?_, by decide, by decide⟩
  have hbd : buildDependencies [⟨"z", "", [], 0⟩, ⟨"x", "", [], 0⟩, ⟨"y", "", [], 0⟩]
      [⟨"x", "zid", "z", "id"⟩, ⟨"y", "zid", "z", "id"⟩] =
      [("z", []), ("x", ["z"]), ("y", ["z"])] := by decide
  rw [hbd]
  exact List.Perm.cons _ (List.Perm.swap _ _ _)

/-- C6 (amended): only the *initially ready* tables (zero in-degree after
dependency filtering) are guaranteed to be emitted first, in their original
input order; tables that become ready during processing are appended in the
order determined by the iteration order of the Go `dependencies` map, which
is unspecified, so those ties are not deterministic across runs (see the
counterexample). -/
theorem topologicalSort_initial_ready_in_input_order (tables : List TableInfo)
    (iter : List (String × List String)) (hnames : (tableNames tables).Nodup) :
    ∃ rest, topologicalSort tables iter =
      tables.filter (fun t => initInDegree iter t.name == 0) ++ rest := by
  obtain ⟨res, hres⟩ : ∃ r, r = kahnLoopF iter (tmOf tables)
      (((tables.filter (fun t => initInDegree iter t.name == 0)).map (fun t => t.name)).length +
        degSum (initInDegree iter) ((iter.map Prod.fst).dedup))
      (initInDegree iter)
      ((tables.filter (fun t => initInDegree iter t.name == 0)).map (fun t => t.name)) [] :=
    ⟨_, rfl⟩
  obtain ⟨suffix, hsuffix⟩ := kahnLoopF_prefix iter (tmOf tables) _ (initInDegree iter)
    ((tables.filter (fun t => initInDegree iter t.name == 0)).map (fun t => t.name)) []
    (le_refl _)
  have hq : (((tables.filter (fun t => initInDegree iter t.name == 0)).map
      (fun t => t.name)).map (tmOf tables)) =
      tables.filter (fun t => initInDegree iter t.name == 0) := by
    rw [List.map_map]
    conv_rhs => rw [← List.map_id (tables.filter (fun t => initInDegree iter t.name == 0))]
    apply List.map_congr_left
    intro t ht
    exact tmOf_eq_self hnames (List.mem_of_mem_filter ht)
  have hresform : res = tables.filter (fun t => initInDegree iter t.name == 0) ++ suffix := by
    rw [hres, hsuffix, hq]
    simp
  rw [topologicalSort_cases tables iter res hres]
  by_cases hlen : res.length ≠ tables.length
  · rw [if_pos hlen]
    exact ⟨suffix ++ tables.filter
      (fun t => !((res.map (fun s => s.name)).contains t.name)),
      by rw [hresform, List.append_assoc]⟩
  · rw [if_neg hlen]
    exact ⟨suffix, hresform⟩

/-- Witness for C6 (amended) at the counterexample's tables: the
zero-in-degree table `z` is emitted first. -/
theorem topologicalSort_initial_ready_in_input_order_witness :
    ∃ rest, topologicalSort [⟨"z", "", [], 0⟩, ⟨"x", "", [], 0⟩, ⟨"y", "", [], 0⟩]
        [("z", []), ("y", ["z"]), ("x", ["z"])] =
      [⟨"z", "", [], 0⟩, ⟨"x", "", [], 0⟩, ⟨"y", "", [], 0⟩].filter
        (fun t => initInDegree [("z", []), ("y", ["z"]), ("x", ["z"])] t.name == 0) ++ rest :=
  topologicalSort_initial_ready_in_input_order
    [⟨"z", "", [], 0⟩, ⟨"x", "", [], 0⟩, ⟨"y", "", [], 0⟩]
    [("z", []), ("y", ["z"]), ("x", ["z"])] (by decide)

end DBAnon
